import Mathlib

set_option maxHeartbeats 1000000
set_option linter.unusedSectionVars false
set_option linter.unusedVariables false

namespace Fh

/-- Multiway tree as in `src/v1.rs` and `src/v2.rs` (the two files declare
identical `Tree<T>` types): one value `node` and an ordered `children` list
(`Vec<Tree<T>>`; `Vec::push` appends at the end). -/
inductive Tree (α : Type) : Type where
  | mk (node : α) (children : List (Tree α)) : Tree α

def Tree.node {α : Type} : Tree α → α
  | .mk v _ => v

def Tree.children {α : Type} : Tree α → List (Tree α)
  | .mk _ cs => cs

/-- Rust `Tree::new`. -/
def Tree.new {α : Type} (root : α) : Tree α := .mk root []

/-- Rust `Tree::degree`: number of direct children. -/
def Tree.degree {α : Type} (t : Tree α) : Nat := t.children.length

mutual
/-- Rust `Tree::count_nodes` (v1): `1 + children.iter().map(count_nodes).sum()`. -/
def Tree.count_nodes {α : Type} : Tree α → Nat
  | .mk _ cs => 1 + countForest cs

/-- Rust free function `count_nodes` over a forest (v1 free fn): sum of per-tree counts. -/
def countForest {α : Type} : List (Tree α) → Nat
  | [] => 0
  | t :: ts => t.count_nodes + countForest ts
end

mutual
/-- All values stored in a tree, root first. -/
def Tree.elems {α : Type} : Tree α → List α
  | .mk v cs => v :: elemsForest cs

/-- All values stored in a forest, in order. -/
def elemsForest {α : Type} : List (Tree α) → List α
  | [] => []
  | t :: ts => t.elems ++ elemsForest ts
end

mutual
/-- The min-heap property checked by the repository's `verify_min_heap` test:
each node's value is `≤` each direct child's value, recursively. -/
def Tree.isHeap {α : Type} [LinearOrder α] : Tree α → Bool
  | .mk v cs => heapChildren v cs

def heapChildren {α : Type} [LinearOrder α] (v : α) : List (Tree α) → Bool
  | [] => true
  | c :: cs => (decide (v ≤ c.node) && c.isHeap) && heapChildren v cs
end

mutual
/-- Predicate `t.binomRank k`: `t` is a binomial tree of rank `k` (it has exactly `k`
children, of ranks `0, 1, …, k-1` in child-list order). -/
def Tree.binomRank {α : Type} : Tree α → Nat → Bool
  | .mk _ cs, k => (cs.length == k) && binomChildren cs 0

def binomChildren {α : Type} : List (Tree α) → Nat → Bool
  | [], _ => true
  | c :: cs, i => c.binomRank i && binomChildren cs (i + 1)
end

end Fh

namespace Fh

variable {α : Type}

/-- Fuel-based computation of `usize::ilog2` (⌊log2 n⌋, meaningful for
`n ≥ 1`): structural recursion so that the kernel can evaluate it. -/
def ilog2Aux : Nat → Nat → Nat
  | 0, _ => 0
  | fuel + 1, n => if n ≥ 2 then ilog2Aux fuel (n / 2) + 1 else 0

/-- Rust `usize::ilog2` (the caller guards against `n == 0`). -/
def ilog2 (n : Nat) : Nat := ilog2Aux n n

theorem ilog2Aux_eq_log2 : ∀ fuel n, n ≤ fuel → ilog2Aux fuel n = Nat.log2 n := by
  intro fuel
  induction fuel with
  | zero =>
    intro n hn
    have hn0 : n = 0 := Nat.le_zero.mp hn
    subst hn0
    simp [ilog2Aux, Nat.log2]
  | succ fuel ih =>
    intro n hn
    rw [ilog2Aux, Nat.log2]
    by_cases h2 : n ≥ 2
    · simp only [h2, if_true]
      have hd : n / 2 ≤ fuel := by omega
      rw [ih (n / 2) hd]
    · simp [h2]

theorem ilog2_eq_log2 (n : Nat) : ilog2 n = Nat.log2 n :=
  ilog2Aux_eq_log2 n n le_rfl

/-- The merge of the two equal-degree trees in `rebalance` (identical in
`src/v1.rs` lines 106-116 and `src/v2.rs` lines 118-128): `t` is the tree
being placed, `tb` the bucket occupant taken out of `buf`.  When
`t.root() <= tb.root()` the occupant is pushed onto `t`'s children,
otherwise `t` is pushed onto `tb`'s children. -/
def mergeTrees [LinearOrder α] (t tb : Tree α) : Tree α :=
  if t.node ≤ tb.node then .mk t.node (t.children ++ [tb])
  else .mk tb.node (tb.children ++ [t])

/-- Number of occupied slots of the bucket array. -/
def countSome (buf : List (Option (Tree α))) : Nat :=
  (buf.filterMap id).length

theorem countSome_set_none (buf : List (Option (Tree α))) (d : Nat) (tb : Tree α)
    (h : buf[d]? = some (some tb)) : countSome buf = countSome (buf.set d none) + 1 := by
  induction buf generalizing d with
  | nil => simp at h
  | cons o buf ih =>
    cases d with
    | zero =>
      simp only [List.getElem?_cons_zero, Option.some.injEq] at h
      subst h
      simp [countSome, List.filterMap_cons]
    | succ d =>
      simp only [List.getElem?_cons_succ] at h
      have := ih d h
      cases o with
      | none => simpa [countSome, List.filterMap_cons] using this
      | some t => simpa [countSome, List.filterMap_cons] using this

/-- The inner placement loop of `rebalance` (identical in both files):
place `tree` into `buf[tree.degree()]`, merging and retrying as long as the
slot is occupied.  A `none` result models the panic: the bucket access
`buf[degree]` with `degree ≥ buf.len()` (equivalently, the failure of the
`debug_assert!(degree < cap)` guarding it). -/
def insertTreeAux [LinearOrder α] :
    Nat → List (Option (Tree α)) → Tree α → Option (List (Option (Tree α)))
  | fuel, buf, t =>
    match buf[t.degree]? with
    | none => none
    | some none => some (buf.set t.degree (some t))
    | some (some tb) =>
      match fuel with
      | 0 => none
      | fuel' + 1 => insertTreeAux fuel' (buf.set t.degree none) (mergeTrees t tb)

def insertTree [LinearOrder α] (buf : List (Option (Tree α))) (t : Tree α) :
    Option (List (Option (Tree α))) :=
  insertTreeAux (countSome buf) buf t

/-- One-step unfolding of `insertTree`, recovering the source's loop shape:
the fuel of `insertTreeAux` is exactly the number of occupied buckets, which
decreases by exactly one at every merge, so it is never exhausted. -/
theorem insertTree_eq [LinearOrder α] (buf : List (Option (Tree α))) (t : Tree α) :
    insertTree buf t =
      match buf[t.degree]? with
      | none => none
      | some none => some (buf.set t.degree (some t))
      | some (some tb) => insertTree (buf.set t.degree none) (mergeTrees t tb) := by
  unfold insertTree
  conv_lhs => rw [insertTreeAux]
  cases h : buf[t.degree]? with
  | none => rfl
  | some o =>
    cases o with
    | none => rfl
    | some tb =>
      rw [countSome_set_none buf t.degree tb h]

/-- The outer `while let Some(tree) = roots.pop…()` loop of `rebalance`,
applied to the trees in extraction order. -/
def insertAll [LinearOrder α] (buf : List (Option (Tree α))) :
    List (Tree α) → Option (List (Option (Tree α)))
  | [] => some buf
  | t :: ts =>
    match insertTree buf t with
    | none => none
    | some buf' => insertAll buf' ts

/-- Function `rebalance` from `src/v1.rs` (lines 71-123).  The node count is
recomputed by traversal; `cap = nodes.ilog2() + 1` (`Nat.log2` agrees with
`usize::ilog2` on positive numbers); the `LinkedList` is drained from the
front, so trees are processed in list order; finally the non-empty buckets
are appended back in ascending slot order.  `none` models a panic
(`ilog2` on zero, or an out-of-range bucket access). -/
def rebalance1 [LinearOrder α] (roots : List (Tree α)) : Option (List (Tree α)) :=
  if roots.isEmpty then some roots
  else if countForest roots = 0 then none
  else
    match insertAll (List.replicate (ilog2 (countForest roots) + 1) none) roots with
    | none => none
    | some buf => some (buf.filterMap id)

/-- Function `rebalance` from `src/v2.rs` (lines 85-135).  The node count is the
caller-supplied `nodes`; the `Vec` is drained with `pop()` from the back,
so trees are processed in reverse list order. -/
def rebalance2 [LinearOrder α] (roots : List (Tree α)) (nodes : Nat) :
    Option (List (Tree α)) :=
  if roots.isEmpty then some roots
  else if nodes = 0 then none
  else
    match insertAll (List.replicate (ilog2 nodes + 1) none) roots.reverse with
    | none => none
    | some buf => some (buf.filterMap id)

/-- Expression `roots.iter().enumerate().min_by_key(|(_, t)| t.root())` (identical in
`bring_min_to_front` of v1 and `order_min` of v2): index and value of the
minimum-valued root; Rust's `min_by_key` returns the first of several
equally-minimal elements, so the head wins ties. -/
def minIdxVal [LinearOrder α] : List (Tree α) → Option (Nat × α)
  | [] => none
  | t :: ts =>
    match minIdxVal ts with
    | none => some (0, t.node)
    | some (j, m) => if t.node ≤ m then some (0, t.node) else some (j + 1, m)

/-- Function `bring_min_to_front` from `src/v1.rs` (lines 129-144): `split_off(idx)`
yields the suffix starting at the minimum, and the remaining prefix is
appended at its end — a rotation. -/
def bring_min_to_front [LinearOrder α] (roots : List (Tree α)) : List (Tree α) :=
  match minIdxVal roots with
  | none => roots
  | some (idx, _) => roots.drop idx ++ roots.take idx

/-- Rust `<[T]>::swap(i, j)`: exchange the elements at two in-range indices
(identity when either index is out of range). -/
def listSwap {β : Type} (l : List β) (i j : Nat) : List β :=
  match l[i]?, l[j]? with
  | some a, some b => (l.set i b).set j a
  | _, _ => l

/-- Function `order_min` from `src/v2.rs` (lines 137-148): swap the minimum root
into the last index. -/
def order_min [LinearOrder α] (roots : List (Tree α)) : List (Tree α) :=
  match minIdxVal roots with
  | none => roots
  | some (idx, _) => listSwap roots idx (roots.length - 1)

end Fh

namespace Fh

variable {α : Type}

/-- Struct `FibonacciHeap` from `src/v1.rs`: a head-anchored `LinkedList` of
trees (list head = front of the `LinkedList`). -/
structure Heap1 (α : Type) : Type where
  roots : List (Tree α)

/-- Rust `FibonacciHeap::new` (v1). -/
def Heap1.new : Heap1 α := ⟨[]⟩

/-- Rust `FibonacciHeap::len` (v1): recomputed by traversal. -/
def Heap1.len (h : Heap1 α) : Nat := countForest h.roots

/-- Rust `FibonacciHeap::peek` (v1): `roots.front().map(Tree::root)`. -/
def Heap1.peek (h : Heap1 α) : Option α := h.roots.head?.map Tree.node

/-- Rust `FibonacciHeap::push` (v1): prepend when the item is `≤` the current
minimum (or the heap is empty), append otherwise. -/
def Heap1.push [LinearOrder α] (h : Heap1 α) (item : α) : Heap1 α :=
  if (h.peek.map fun o => decide (item ≤ o)).getD true then
    ⟨Tree.new item :: h.roots⟩
  else
    ⟨h.roots ++ [Tree.new item]⟩

/-- Rust `FibonacciHeap::pop` (v1): pop the front root, promote its children to
the back, rebalance, bring the minimum to the front.  The outer `none`
models a panic inside `rebalance`. -/
def Heap1.pop [LinearOrder α] (h : Heap1 α) : Option (Option α × Heap1 α) :=
  match h.roots with
  | [] => some (none, h)
  | t :: rest =>
    match rebalance1 (rest ++ t.children) with
    | none => none
    | some out => some (some t.node, ⟨bring_min_to_front out⟩)

/-- Struct `FibonacciHeap` from `src/v2.rs`: a tail-anchored `Vec` of trees plus
an incrementally maintained `len` field. -/
structure Heap2 (α : Type) : Type where
  roots : List (Tree α)
  len : Nat

/-- Rust `FibonacciHeap::new` (v2). -/
def Heap2.new : Heap2 α := ⟨[], 0⟩

/-- Rust `FibonacciHeap::peek` (v2): `roots.last().map(Tree::root)`. -/
def Heap2.peek (h : Heap2 α) : Option α := h.roots.getLast?.map Tree.node

/-- Rust `FibonacciHeap::push` (v2): append the singleton; if it is not a
new minimum (`new_min` false, i.e. the `if !new_min` branch of the source
runs), swap the last two slots (`swap(i - 1, i)` with `i = len - 1`) so the
old minimum stays last; `len` is incremented either way. -/
def Heap2.push [LinearOrder α] (h : Heap2 α) (item : α) : Heap2 α :=
  if (h.peek.map fun o => decide (item ≤ o)).getD true then
    ⟨h.roots ++ [Tree.new item], h.len + 1⟩
  else
    ⟨listSwap (h.roots ++ [Tree.new item])
      ((h.roots ++ [Tree.new item]).length - 1 - 1)
      ((h.roots ++ [Tree.new item]).length - 1), h.len + 1⟩

/-- Rust `FibonacciHeap::pop` (v2): pop the last root, decrement `len`, promote
its children, rebalance with the stored `len`, swap the minimum to the
end.  The outer `none` models a panic inside `rebalance`. -/
def Heap2.pop [LinearOrder α] (h : Heap2 α) : Option (Option α × Heap2 α) :=
  match h.roots.getLast? with
  | none => some (none, h)
  | some t =>
    match rebalance2 (h.roots.dropLast ++ t.children) (h.len - 1) with
    | none => none
    | some out => some (some t.node, ⟨order_min out, h.len - 1⟩)

/-- A public heap operation. -/
inductive Op (α : Type) : Type where
  | push (x : α) : Op α
  | pop : Op α

/-- Run a list of operations on a v1 heap, collecting each `pop` result;
`none` propagates a panic. -/
def steps1 [LinearOrder α] (h : Heap1 α) :
    List (Op α) → Option (Heap1 α × List (Option α))
  | [] => some (h, [])
  | .push x :: ops => steps1 (h.push x) ops
  | .pop :: ops =>
    match h.pop with
    | none => none
    | some (r, h') => (steps1 h' ops).map fun p => (p.1, r :: p.2)

/-- Run a list of operations on a fresh v1 heap. -/
def run1 [LinearOrder α] (ops : List (Op α)) : Option (Heap1 α × List (Option α)) :=
  steps1 Heap1.new ops

/-- Run a list of operations on a v2 heap. -/
def steps2 [LinearOrder α] (h : Heap2 α) :
    List (Op α) → Option (Heap2 α × List (Option α))
  | [] => some (h, [])
  | .push x :: ops => steps2 (h.push x) ops
  | .pop :: ops =>
    match h.pop with
    | none => none
    | some (r, h') => (steps2 h' ops).map fun p => (p.1, r :: p.2)

/-- Run a list of operations on a fresh v2 heap. -/
def run2 [LinearOrder α] (ops : List (Op α)) : Option (Heap2 α × List (Option α)) :=
  steps2 Heap2.new ops

/-- Pop repeatedly until `pop` returns `None`, collecting the extracted
values; `fuel` bounds the number of successful pops (taking `fuel` equal to
the heap's size always suffices), and `none` reports either fuel exhaustion
or a panic. -/
def drain1 [LinearOrder α] : Nat → Heap1 α → Option (List α)
  | fuel, h =>
    match h.pop with
    | none => none
    | some (none, _) => some []
    | some (some x, h') =>
      match fuel with
      | 0 => none
      | fuel' + 1 => (drain1 fuel' h').map fun l => x :: l

/-- v2 analogue of `drain1`. -/
def drain2 [LinearOrder α] : Nat → Heap2 α → Option (List α)
  | fuel, h =>
    match h.pop with
    | none => none
    | some (none, _) => some []
    | some (some x, h') =>
      match fuel with
      | 0 => none
      | fuel' + 1 => (drain2 fuel' h').map fun l => x :: l

/-- Number of `push` operations in a list. -/
def countPush : List (Op α) → Nat
  | [] => 0
  | .push _ :: ops => countPush ops + 1
  | .pop :: ops => countPush ops

/-- Number of successful (`some`) pop results in a trace. -/
def countHits (rs : List (Option α)) : Nat := (rs.filterMap id).length

end Fh

namespace Fh
mutual
/-- Structural equality test for trees. -/
def Tree.beq {α : Type} [DecidableEq α] : Tree α → Tree α → Bool
  | .mk v cs, .mk w ds => decide (v = w) && beqForest cs ds

def beqForest {α : Type} [DecidableEq α] : List (Tree α) → List (Tree α) → Bool
  | [], [] => true
  | t :: ts, u :: us => t.beq u && beqForest ts us
  | _, _ => false
end

mutual
theorem Tree.beq_iff {α : Type} [DecidableEq α] :
    ∀ t u : Tree α, t.beq u = true ↔ t = u
  | .mk v cs, .mk w ds => by
    simp only [Tree.beq, Bool.and_eq_true, decide_eq_true_eq, Tree.mk.injEq]
    exact and_congr Iff.rfl (beqForest_iff cs ds)

theorem beqForest_iff {α : Type} [DecidableEq α] :
    ∀ ts us : List (Tree α), beqForest ts us = true ↔ ts = us
  | [], [] => by simp [beqForest]
  | [], _ :: _ => by simp [beqForest]
  | _ :: _, [] => by simp [beqForest]
  | t :: ts, u :: us => by
    simp only [beqForest, Bool.and_eq_true, List.cons.injEq]
    exact and_congr (Tree.beq_iff t u) (beqForest_iff ts us)
end

instance {α : Type} [DecidableEq α] : DecidableEq (Tree α) := fun t u =>
  decidable_of_iff _ (Tree.beq_iff t u)

instance {α : Type} [DecidableEq α] : DecidableEq (Heap1 α) := fun a b =>
  decidable_of_iff (a.roots = b.roots) (by cases a; cases b; simp)

instance {α : Type} [DecidableEq α] : DecidableEq (Heap2 α) := fun a b =>
  decidable_of_iff (a.roots = b.roots ∧ a.len = b.len) (by cases a; cases b; simp)


end Fh

namespace Fh

variable {α : Type}

theorem countForest_append (ts us : List (Tree α)) :
    countForest (ts ++ us) = countForest ts + countForest us := by
  induction ts with
  | nil => simp [countForest]
  | cons t ts ih => simp [countForest, ih]; omega

theorem elemsForest_append (ts us : List (Tree α)) :
    elemsForest (ts ++ us) = elemsForest ts ++ elemsForest us := by
  induction ts with
  | nil => simp [elemsForest]
  | cons t ts ih => simp [elemsForest, ih]

theorem elemsForest_eq_flatMap (ts : List (Tree α)) :
    elemsForest ts = ts.flatMap Tree.elems := by
  induction ts with
  | nil => simp [elemsForest]
  | cons t ts ih => simp [elemsForest, ih]

theorem elemsForest_perm {ts us : List (Tree α)} (h : ts.Perm us) :
    (elemsForest ts).Perm (elemsForest us) := by
  rw [elemsForest_eq_flatMap, elemsForest_eq_flatMap]
  exact h.flatMap_right Tree.elems

mutual
theorem Tree.count_nodes_eq (t : Tree α) : t.count_nodes = t.elems.length := by
  cases t with
  | mk v cs =>
    rw [Tree.count_nodes, Tree.elems, List.length_cons, countForest_eq cs]
    omega

theorem countForest_eq (ts : List (Tree α)) :
    countForest ts = (elemsForest ts).length := by
  cases ts with
  | nil => rfl
  | cons t ts =>
    rw [countForest, elemsForest, List.length_append, Tree.count_nodes_eq t,
      countForest_eq ts]
end

theorem Tree.count_nodes_pos (t : Tree α) : 1 ≤ t.count_nodes := by
  cases t with
  | mk v cs => rw [Tree.count_nodes]; omega

theorem countForest_eq_zero {ts : List (Tree α)} (h : countForest ts = 0) :
    ts = [] := by
  cases ts with
  | nil => rfl
  | cons t ts =>
    rw [countForest] at h
    have := t.count_nodes_pos
    omega

theorem Tree.node_mem_elems (t : Tree α) : t.node ∈ t.elems := by
  cases t with
  | mk v cs => rw [Tree.node, Tree.elems]; exact List.mem_cons_self v _

theorem countForest_pos {ts : List (Tree α)} (h : ts ≠ []) :
    1 ≤ countForest ts := by
  cases ts with
  | nil => exact absurd rfl h
  | cons t ts => rw [countForest]; have := t.count_nodes_pos; omega

end Fh

namespace Fh

variable {α : Type} [LinearOrder α]

theorem heapChildren_iff (v : α) (cs : List (Tree α)) :
    heapChildren v cs = true ↔ ∀ c ∈ cs, v ≤ c.node ∧ c.isHeap = true := by
  induction cs with
  | nil => simp [heapChildren]
  | cons c cs ih =>
    rw [heapChildren]
    simp only [Bool.and_eq_true, decide_eq_true_eq, List.mem_cons]
    constructor
    · rintro ⟨⟨h1, h2⟩, h3⟩ d hd
      rcases hd with rfl | hd
      · exact ⟨h1, h2⟩
      · exact (ih.mp h3) d hd
    · intro h
      exact ⟨⟨(h c (Or.inl rfl)).1, (h c (Or.inl rfl)).2⟩,
        ih.mpr fun d hd => h d (Or.inr hd)⟩

theorem Tree.isHeap_iff (v : α) (cs : List (Tree α)) :
    (Tree.mk v cs).isHeap = true ↔ ∀ c ∈ cs, v ≤ c.node ∧ c.isHeap = true := by
  rw [Tree.isHeap]; exact heapChildren_iff v cs

mutual
theorem Tree.isHeap_le_elems : ∀ t : Tree α, t.isHeap = true →
    ∀ x ∈ t.elems, t.node ≤ x
  | .mk v cs => by
    intro ht x hx
    rw [Tree.elems] at hx
    rw [Tree.node]
    rcases List.mem_cons.mp hx with rfl | hx
    · exact le_refl x
    · rw [Tree.isHeap] at ht
      exact heapChildren_le_elems v cs ht x hx

theorem heapChildren_le_elems : ∀ (v : α) (cs : List (Tree α)),
    heapChildren v cs = true → ∀ x ∈ elemsForest cs, v ≤ x
  | v, [] => by intro _ x hx; simp [elemsForest] at hx
  | v, c :: cs => by
    intro h x hx
    rw [heapChildren, Bool.and_eq_true, Bool.and_eq_true, decide_eq_true_eq] at h
    rw [elemsForest] at hx
    rcases List.mem_append.mp hx with hx | hx
    · exact le_trans h.1.1 (Tree.isHeap_le_elems c h.1.2 x hx)
    · exact heapChildren_le_elems v cs h.2 x hx
end

theorem heapChildren_concat (v : α) (cs : List (Tree α)) (c : Tree α) :
    heapChildren v (cs ++ [c]) = true ↔
      heapChildren v cs = true ∧ v ≤ c.node ∧ c.isHeap = true := by
  rw [heapChildren_iff, heapChildren_iff]
  constructor
  · intro h
    exact ⟨fun d hd => h d (List.mem_append.mpr (Or.inl hd)),
      h c (List.mem_append.mpr (Or.inr (List.mem_singleton.mpr rfl)))⟩
  · rintro ⟨h1, h2⟩ d hd
    rcases List.mem_append.mp hd with hd | hd
    · exact h1 d hd
    · rw [List.mem_singleton.mp hd]; exact h2

end Fh

namespace Fh

variable {α : Type}

theorem Tree.binomRank_degree {t : Tree α} {k : Nat} (h : t.binomRank k = true) :
    t.degree = k := by
  cases t with
  | mk v cs =>
    rw [Tree.binomRank, Bool.and_eq_true, beq_iff_eq] at h
    rw [Tree.degree, Tree.children]
    exact h.1

theorem binomChildren_concat (cs : List (Tree α)) (c : Tree α) :
    ∀ i, binomChildren (cs ++ [c]) i = true ↔
      binomChildren cs i = true ∧ c.binomRank (i + cs.length) = true := by
  induction cs with
  | nil => intro i; simp [binomChildren]
  | cons d cs ih =>
    intro i
    rw [List.cons_append, binomChildren, binomChildren, Bool.and_eq_true,
      Bool.and_eq_true, ih (i + 1)]
    constructor
    · rintro ⟨h1, h2, h3⟩
      refine ⟨⟨h1, h2⟩, ?_⟩
      have : i + 1 + cs.length = i + (d :: cs).length := by
        simp [List.length_cons]; omega
      rwa [this] at h3
    · rintro ⟨⟨h1, h2⟩, h3⟩
      refine ⟨h1, h2, ?_⟩
      have : i + (d :: cs).length = i + 1 + cs.length := by
        simp [List.length_cons]; omega
      rwa [this] at h3

theorem binomChildren_getElem {cs : List (Tree α)} :
    ∀ {i : Nat}, binomChildren cs i = true →
      ∀ (p : Nat) (hp : p < cs.length), cs[p].binomRank (i + p) = true := by
  induction cs with
  | nil => intro i _ p hp; simp at hp
  | cons c cs ih =>
    intro i h p hp
    rw [binomChildren, Bool.and_eq_true] at h
    cases p with
    | zero => simpa using h.1
    | succ p =>
      have hplt : p < cs.length := by simpa using Nat.lt_of_succ_lt_succ hp
      have hrank := ih h.2 p hplt
      have harith : i + 1 + p = i + (p + 1) := by omega
      rw [harith] at hrank
      simpa using hrank

theorem binomChildren_mem {cs : List (Tree α)} {i : Nat}
    (h : binomChildren cs i = true) :
    ∀ c ∈ cs, c.binomRank c.degree = true := by
  intro c hc
  rcases List.mem_iff_getElem.mp hc with ⟨p, hp, rfl⟩
  have hb := binomChildren_getElem h p hp
  rwa [Tree.binomRank_degree hb]

mutual
theorem Tree.binomRank_count : ∀ (t : Tree α) (k : Nat),
    t.binomRank k = true → t.count_nodes = 2 ^ k
  | .mk v cs, k => by
    intro h
    rw [Tree.binomRank, Bool.and_eq_true, beq_iff_eq] at h
    rw [Tree.count_nodes]
    have := binomChildren_count cs 0 h.2
    rw [Nat.zero_add] at this
    rw [h.1] at this
    omega

theorem binomChildren_count : ∀ (cs : List (Tree α)) (i : Nat),
    binomChildren cs i = true → countForest cs + 2 ^ i = 2 ^ (i + cs.length)
  | [], i => by intro _; simp [countForest]
  | c :: cs, i => by
    intro h
    rw [binomChildren, Bool.and_eq_true] at h
    rw [countForest, Tree.binomRank_count c i h.1]
    have := binomChildren_count cs (i + 1) h.2
    have hlen : i + (c :: cs).length = (i + 1) + cs.length := by
      simp [List.length_cons]; omega
    rw [hlen]
    rw [pow_succ] at this
    omega
end

/-- Singleton trees are binomial of rank 0. -/
theorem Tree.binomRank_new (x : α) : (Tree.new x).binomRank 0 = true := by
  rw [Tree.new, Tree.binomRank]; rfl

theorem Tree.isHeap_new [LinearOrder α] (x : α) : (Tree.new x).isHeap = true := by
  rw [Tree.new, Tree.isHeap]; rfl

theorem Tree.elems_new (x : α) : (Tree.new x).elems = [x] := by
  rw [Tree.new, Tree.elems]; rfl

end Fh

namespace Fh

variable {α : Type} [LinearOrder α]

theorem mergeTrees_elems (t tb : Tree α) :
    ((mergeTrees t tb).elems).Perm (t.elems ++ tb.elems) := by
  cases t with
  | mk v cs =>
    cases tb with
    | mk w ds =>
      rw [mergeTrees]
      by_cases h : (Tree.mk v cs).node ≤ (Tree.mk w ds).node
      · rw [if_pos h]
        simp only [Tree.elems, Tree.node, Tree.children, elemsForest_append,
          elemsForest, List.append_nil]
        exact List.Perm.refl _
      · rw [if_neg h]
        simp only [Tree.elems, Tree.node, Tree.children, elemsForest_append,
          elemsForest, List.append_nil]
        have hshape : w :: (elemsForest ds ++ v :: elemsForest cs)
            = (w :: elemsForest ds) ++ (v :: elemsForest cs) := rfl
        rw [hshape]
        exact List.perm_append_comm

theorem mergeTrees_count (t tb : Tree α) :
    (mergeTrees t tb).count_nodes = t.count_nodes + tb.count_nodes := by
  have h1 := (mergeTrees t tb).count_nodes_eq
  have h2 := t.count_nodes_eq
  have h3 := tb.count_nodes_eq
  have h4 := (mergeTrees_elems t tb).length_eq
  rw [List.length_append] at h4
  omega

theorem mergeTrees_isHeap {t tb : Tree α} (ht : t.isHeap = true)
    (htb : tb.isHeap = true) : (mergeTrees t tb).isHeap = true := by
  cases t with
  | mk v cs =>
    cases tb with
    | mk w ds =>
      rw [mergeTrees]
      by_cases h : (Tree.mk v cs).node ≤ (Tree.mk w ds).node
      · rw [if_pos h, Tree.node, Tree.children, Tree.isHeap]
        rw [Tree.isHeap] at ht
        exact (heapChildren_concat v cs _).mpr ⟨ht, h, htb⟩
      · rw [if_neg h, Tree.node, Tree.children, Tree.isHeap]
        rw [Tree.isHeap] at htb
        have hle : w ≤ v := le_of_not_le h
        exact (heapChildren_concat w ds _).mpr ⟨htb, hle, ht⟩

theorem mergeTrees_binomRank {t tb : Tree α} {k : Nat}
    (ht : t.binomRank k = true) (htb : tb.binomRank k = true) :
    (mergeTrees t tb).binomRank (k + 1) = true := by
  cases t with
  | mk v cs =>
    cases tb with
    | mk w ds =>
      rw [Tree.binomRank, Bool.and_eq_true, beq_iff_eq] at ht htb
      rw [mergeTrees]
      by_cases h : (Tree.mk v cs).node ≤ (Tree.mk w ds).node
      · rw [if_pos h, Tree.children, Tree.binomRank, Bool.and_eq_true, beq_iff_eq]
        refine ⟨by simp [ht.1], ?_⟩
        refine (binomChildren_concat cs _ 0).mpr ⟨ht.2, ?_⟩
        rw [Nat.zero_add, ht.1, Tree.binomRank, Bool.and_eq_true, beq_iff_eq]
        exact htb
      · rw [if_neg h, Tree.children, Tree.binomRank, Bool.and_eq_true, beq_iff_eq]
        refine ⟨by simp [htb.1], ?_⟩
        refine (binomChildren_concat ds _ 0).mpr ⟨htb.2, ?_⟩
        rw [Nat.zero_add, htb.1, Tree.binomRank, Bool.and_eq_true, beq_iff_eq]
        exact ht

theorem mergeTrees_degree {t tb : Tree α} {k : Nat}
    (ht : t.degree = k) (htb : tb.degree = k) :
    (mergeTrees t tb).degree = k + 1 := by
  cases t with
  | mk v cs =>
    cases tb with
    | mk w ds =>
      rw [Tree.degree, Tree.children] at ht htb
      rw [mergeTrees]
      by_cases h : (Tree.mk v cs).node ≤ (Tree.mk w ds).node
      · rw [if_pos h, Tree.degree, Tree.children, List.length_append]
        simp [Tree.children, ht]
      · rw [if_neg h, Tree.degree, Tree.children, List.length_append]
        simp [Tree.children, htb]

end Fh

namespace Fh

variable {α : Type}

/-- Bucket invariant maintained by the consolidation loop for arbitrary
input trees: an occupied slot holds a tree whose degree is the slot index. -/
def BufDeg (buf : List (Option (Tree α))) : Prop :=
  ∀ (i : Nat) (t : Tree α), buf[i]? = some (some t) → t.degree = i

/-- Occupied slots hold min-heap-ordered trees. -/
def BufHeap [LinearOrder α] (buf : List (Option (Tree α))) : Prop :=
  ∀ (i : Nat) (t : Tree α), buf[i]? = some (some t) → t.isHeap = true

/-- Occupied slots hold binomial trees of the slot's rank. -/
def BufBinom (buf : List (Option (Tree α))) : Prop :=
  ∀ (i : Nat) (t : Tree α), buf[i]? = some (some t) → t.binomRank i = true

/-- All values held by the bucket array. -/
def bufElems (buf : List (Option (Tree α))) : List α :=
  elemsForest (buf.filterMap id)

/-- Total node count held by the bucket array. -/
def bufCount (buf : List (Option (Tree α))) : Nat :=
  countForest (buf.filterMap id)

theorem BufBinom.bufDeg {buf : List (Option (Tree α))} (h : BufBinom buf) :
    BufDeg buf := by
  intro i t hi
  exact Tree.binomRank_degree (h i t hi)

theorem filterMap_set_some {β : Type} :
    ∀ (l : List (Option β)) (k : Nat) (x : β), l[k]? = some none →
      ((l.set k (some x)).filterMap id).Perm (x :: l.filterMap id)
  | [], k, x => by intro h; simp at h
  | o :: l, 0, x => by
    intro h
    simp only [List.getElem?_cons_zero, Option.some.injEq] at h
    subst h
    simp [List.filterMap_cons]
  | o :: l, k + 1, x => by
    intro h
    simp only [List.getElem?_cons_succ] at h
    have ih := filterMap_set_some l k x h
    cases o with
    | none =>
      simpa using ih
    | some b =>
      have h1 : ((some b :: l).set (k + 1) (some x)).filterMap id
          = b :: (l.set k (some x)).filterMap id := by simp
      have h2 : (some b :: l).filterMap id = b :: l.filterMap id := by simp
      rw [h1, h2]
      exact (ih.cons b).trans (List.Perm.swap x b _)

theorem filterMap_set_none {β : Type} :
    ∀ (l : List (Option β)) (k : Nat) (x : β), l[k]? = some (some x) →
      (l.filterMap id).Perm (x :: (l.set k none).filterMap id)
  | [], k, x => by intro h; simp at h
  | o :: l, 0, x => by
    intro h
    simp only [List.getElem?_cons_zero, Option.some.injEq] at h
    subst h
    simp [List.filterMap_cons]
  | o :: l, k + 1, x => by
    intro h
    simp only [List.getElem?_cons_succ] at h
    have ih := filterMap_set_none l k x h
    cases o with
    | none =>
      simpa using ih
    | some b =>
      have h1 : (some b :: l).filterMap id = b :: l.filterMap id := by simp
      have h2 : ((some b :: l).set (k + 1) none).filterMap id
          = b :: (l.set k none).filterMap id := by simp
      rw [h1, h2]
      exact (ih.cons b).trans (List.Perm.swap x b _)

end Fh

namespace Fh

variable {α : Type}

theorem bufCount_eq (buf : List (Option (Tree α))) :
    bufCount buf = (bufElems buf).length := countForest_eq _

theorem bufElems_set_some [LinearOrder α] {buf : List (Option (Tree α))} {k : Nat}
    (t : Tree α) (h : buf[k]? = some none) :
    (bufElems (buf.set k (some t))).Perm (t.elems ++ bufElems buf) := by
  have hp := elemsForest_perm (filterMap_set_some buf k t h)
  rw [elemsForest] at hp
  exact hp

theorem bufElems_set_none [LinearOrder α] {buf : List (Option (Tree α))} {k : Nat}
    {tb : Tree α} (h : buf[k]? = some (some tb)) :
    (bufElems buf).Perm (tb.elems ++ bufElems (buf.set k none)) := by
  have hp := elemsForest_perm (filterMap_set_none buf k tb h)
  rw [elemsForest] at hp
  exact hp

theorem getElem?_set_none_cases {buf : List (Option (Tree α))} {k i : Nat}
    {u : Tree α} (hi : (buf.set k none)[i]? = some (some u)) :
    buf[i]? = some (some u) := by
  by_cases hk : k < buf.length
  · rcases eq_or_ne k i with rfl | hne
    · rw [List.getElem?_set_self hk] at hi
      exact Option.noConfusion (Option.some.inj hi)
    · rwa [List.getElem?_set_ne hne] at hi
  · rwa [List.set_eq_of_length_le (Nat.le_of_not_lt hk)] at hi

theorem getElem?_set_some_cases {buf : List (Option (Tree α))} {k i : Nat}
    {t u : Tree α} (hi : (buf.set k (some t))[i]? = some (some u)) :
    (k = i ∧ t = u) ∨ (k ≠ i ∧ buf[i]? = some (some u)) := by
  by_cases hk : k < buf.length
  · rcases eq_or_ne k i with rfl | hne
    · rw [List.getElem?_set_self hk] at hi
      exact Or.inl ⟨rfl, Option.some.inj (Option.some.inj hi)⟩
    · rw [List.getElem?_set_ne hne] at hi
      exact Or.inr ⟨hne, hi⟩
  · rw [List.set_eq_of_length_le (Nat.le_of_not_lt hk)] at hi
    rcases eq_or_ne k i with rfl | hne
    · rw [List.getElem?_eq_some_iff] at hi
      exact absurd hi.fst hk
    · exact Or.inr ⟨hne, hi⟩

end Fh

namespace Fh

variable {α : Type} [LinearOrder α]

theorem bufCount_set_none {buf : List (Option (Tree α))} {k : Nat} {tb : Tree α}
    (heq : buf[k]? = some (some tb)) :
    bufCount buf = tb.count_nodes + bufCount (buf.set k none) := by
  have hlen := (bufElems_set_none (α := α) heq).length_eq
  rw [List.length_append] at hlen
  rw [bufCount_eq, bufCount_eq, tb.count_nodes_eq]
  omega

/-- Whenever the placement loop completes, it preserves the
degree-indexing invariant, the bucket-array length, and the multiset of
stored values (no hypotheses on the shape of the placed trees). -/
theorem insertTree_deg :
    ∀ (N : Nat) (buf buf' : List (Option (Tree α))) (t : Tree α),
      countSome buf ≤ N → insertTree buf t = some buf' → BufDeg buf →
      BufDeg buf' ∧ buf'.length = buf.length ∧
        (bufElems buf').Perm (t.elems ++ bufElems buf) := by
  intro N
  induction N with
  | zero =>
    intro buf buf' t hN hins hdeg
    rw [insertTree_eq] at hins
    split at hins
    · exact Option.noConfusion hins
    · rename_i heq
      have hbuf' := Option.some.inj hins
      subst hbuf'
      refine ⟨?_, List.length_set buf _ _, bufElems_set_some t heq⟩
      intro i u hi
      rcases getElem?_set_some_cases hi with ⟨rfl, rfl⟩ | ⟨_, hget⟩
      · rfl
      · exact hdeg i u hget
    · rename_i tb heq
      have := countSome_set_none buf t.degree tb heq
      omega
  | succ N ih =>
    intro buf buf' t hN hins hdeg
    rw [insertTree_eq] at hins
    split at hins
    · exact Option.noConfusion hins
    · rename_i heq
      have hbuf' := Option.some.inj hins
      subst hbuf'
      refine ⟨?_, List.length_set buf _ _, bufElems_set_some t heq⟩
      intro i u hi
      rcases getElem?_set_some_cases hi with ⟨rfl, rfl⟩ | ⟨_, hget⟩
      · rfl
      · exact hdeg i u hget
    · rename_i tb heq
      have hcs := countSome_set_none buf t.degree tb heq
      have hdeg' : BufDeg (buf.set t.degree none) := by
        intro i u hi
        exact hdeg i u (getElem?_set_none_cases hi)
      obtain ⟨hd2, hl2, hp2⟩ := ih _ buf' (mergeTrees t tb) (by omega) hins hdeg'
      refine ⟨hd2, by rwa [List.length_set] at hl2, ?_⟩
      have hmerge := mergeTrees_elems t tb
      have hswap := bufElems_set_none (α := α) heq
      have hstep : ((t.elems ++ tb.elems) ++ bufElems (buf.set t.degree none)).Perm
          (t.elems ++ bufElems buf) := by
        rw [List.append_assoc]
        exact List.Perm.append_left t.elems hswap.symm
      exact hp2.trans ((hmerge.append_right _).trans hstep)

/-- Whenever the placement loop completes on heap-ordered inputs, all
bucket trees remain heap-ordered. -/
theorem insertTree_heap :
    ∀ (N : Nat) (buf buf' : List (Option (Tree α))) (t : Tree α),
      countSome buf ≤ N → insertTree buf t = some buf' →
      BufHeap buf → t.isHeap = true → BufHeap buf' := by
  intro N
  induction N with
  | zero =>
    intro buf buf' t hN hins hheap hth
    rw [insertTree_eq] at hins
    split at hins
    · exact Option.noConfusion hins
    · rename_i heq
      have hbuf' := Option.some.inj hins
      subst hbuf'
      intro i u hi
      rcases getElem?_set_some_cases hi with ⟨rfl, rfl⟩ | ⟨_, hget⟩
      · exact hth
      · exact hheap i u hget
    · rename_i tb heq
      have := countSome_set_none buf t.degree tb heq
      omega
  | succ N ih =>
    intro buf buf' t hN hins hheap hth
    rw [insertTree_eq] at hins
    split at hins
    · exact Option.noConfusion hins
    · rename_i heq
      have hbuf' := Option.some.inj hins
      subst hbuf'
      intro i u hi
      rcases getElem?_set_some_cases hi with ⟨rfl, rfl⟩ | ⟨_, hget⟩
      · exact hth
      · exact hheap i u hget
    · rename_i tb heq
      have hcs := countSome_set_none buf t.degree tb heq
      have hheap' : BufHeap (buf.set t.degree none) := by
        intro i u hi
        exact hheap i u (getElem?_set_none_cases hi)
      have htb : tb.isHeap = true := hheap t.degree tb heq
      exact ih _ buf' (mergeTrees t tb) (by omega) hins hheap'
        (mergeTrees_isHeap hth htb)

/-- Whenever the placement loop completes on binomial inputs, all bucket
trees remain binomial of their slot's rank. -/
theorem insertTree_binom :
    ∀ (N : Nat) (buf buf' : List (Option (Tree α))) (t : Tree α),
      countSome buf ≤ N → insertTree buf t = some buf' →
      BufBinom buf → t.binomRank t.degree = true → BufBinom buf' := by
  intro N
  induction N with
  | zero =>
    intro buf buf' t hN hins hbin hbt
    rw [insertTree_eq] at hins
    split at hins
    · exact Option.noConfusion hins
    · rename_i heq
      have hbuf' := Option.some.inj hins
      subst hbuf'
      intro i u hi
      rcases getElem?_set_some_cases hi with ⟨rfl, rfl⟩ | ⟨_, hget⟩
      · exact hbt
      · exact hbin i u hget
    · rename_i tb heq
      have := countSome_set_none buf t.degree tb heq
      omega
  | succ N ih =>
    intro buf buf' t hN hins hbin hbt
    rw [insertTree_eq] at hins
    split at hins
    · exact Option.noConfusion hins
    · rename_i heq
      have hbuf' := Option.some.inj hins
      subst hbuf'
      intro i u hi
      rcases getElem?_set_some_cases hi with ⟨rfl, rfl⟩ | ⟨_, hget⟩
      · exact hbt
      · exact hbin i u hget
    · rename_i tb heq
      have hcs := countSome_set_none buf t.degree tb heq
      have hbin' : BufBinom (buf.set t.degree none) := by
        intro i u hi
        exact hbin i u (getElem?_set_none_cases hi)
      have htb : tb.binomRank t.degree = true := hbin t.degree tb heq
      have hmergeRank : (mergeTrees t tb).binomRank (t.degree + 1) = true :=
        mergeTrees_binomRank hbt htb
      have hmergeDeg : (mergeTrees t tb).degree = t.degree + 1 :=
        mergeTrees_degree rfl (Tree.binomRank_degree htb)
      exact ih _ buf' (mergeTrees t tb) (by omega) hins hbin'
        (by rwa [hmergeDeg])

/-- On a binomial bucket array whose total node count (including the tree
being placed) is at most `n`, with at least `log2 n + 1` buckets, the
placement loop never reaches an out-of-range bucket: every access index is
a degree `d` with `2 ^ d ≤ n`. -/
theorem insertTree_isSome {n : Nat} (hn : n ≠ 0) :
    ∀ (N : Nat) (buf : List (Option (Tree α))) (t : Tree α),
      countSome buf ≤ N → BufBinom buf → t.binomRank t.degree = true →
      bufCount buf + t.count_nodes ≤ n → Nat.log2 n + 1 ≤ buf.length →
      ∃ buf', insertTree buf t = some buf' := by
  intro N
  induction N with
  | zero =>
    intro buf t hN hbin hbt hcnt hlen
    rw [insertTree_eq]
    have hdlt : t.degree < buf.length := by
      have h2d : 2 ^ t.degree ≤ n := by
        have := t.binomRank_count t.degree hbt
        omega
      have := (Nat.le_log2 hn).mpr h2d
      omega
    cases hb : buf[t.degree]? with
    | none =>
      rw [List.getElem?_eq_none_iff] at hb
      omega
    | some o =>
      cases o with
      | none => exact ⟨_, rfl⟩
      | some tb =>
        have := countSome_set_none buf t.degree tb hb
        omega
  | succ N ih =>
    intro buf t hN hbin hbt hcnt hlen
    rw [insertTree_eq]
    have hdlt : t.degree < buf.length := by
      have h2d : 2 ^ t.degree ≤ n := by
        have := t.binomRank_count t.degree hbt
        omega
      have := (Nat.le_log2 hn).mpr h2d
      omega
    cases hb : buf[t.degree]? with
    | none =>
      rw [List.getElem?_eq_none_iff] at hb
      omega
    | some o =>
      cases o with
      | none => exact ⟨_, rfl⟩
      | some tb =>
        have hcs := countSome_set_none buf t.degree tb hb
        have hbin' : BufBinom (buf.set t.degree none) := by
          intro i u hi
          exact hbin i u (getElem?_set_none_cases hi)
        have htb : tb.binomRank t.degree = true := hbin t.degree tb hb
        have hmergeRank : (mergeTrees t tb).binomRank (t.degree + 1) = true :=
          mergeTrees_binomRank hbt htb
        have hmergeDeg : (mergeTrees t tb).degree = t.degree + 1 :=
          mergeTrees_degree rfl (Tree.binomRank_degree htb)
        have hsplit := bufCount_set_none (α := α) hb
        have hmc : (mergeTrees t tb).count_nodes
            = t.count_nodes + tb.count_nodes := mergeTrees_count t tb
        refine ih (buf.set t.degree none) (mergeTrees t tb) (by omega) hbin'
          (by rwa [hmergeDeg]) (by omega) ?_
        rwa [List.length_set]

end Fh

namespace Fh

variable {α : Type} [LinearOrder α]

theorem insertTree_deg_all {buf buf' : List (Option (Tree α))} {t : Tree α}
    (hins : insertTree buf t = some buf') (hdeg : BufDeg buf) :
    BufDeg buf' ∧ buf'.length = buf.length ∧
      (bufElems buf').Perm (t.elems ++ bufElems buf) :=
  insertTree_deg (countSome buf) buf buf' t le_rfl hins hdeg

theorem insertTree_count {buf buf' : List (Option (Tree α))} {t : Tree α}
    (hins : insertTree buf t = some buf') (hdeg : BufDeg buf) :
    bufCount buf' = t.count_nodes + bufCount buf := by
  have hp := (insertTree_deg_all hins hdeg).2.2
  have hlen := hp.length_eq
  rw [List.length_append] at hlen
  rw [bufCount_eq, bufCount_eq, t.count_nodes_eq]
  omega

theorem insertAll_deg :
    ∀ (ts : List (Tree α)) (buf buf' : List (Option (Tree α))),
      insertAll buf ts = some buf' → BufDeg buf →
      BufDeg buf' ∧ buf'.length = buf.length ∧
        (bufElems buf').Perm (elemsForest ts ++ bufElems buf) := by
  intro ts
  induction ts with
  | nil =>
    intro buf buf' hins hdeg
    rw [insertAll] at hins
    have hbuf' := Option.some.inj hins
    subst hbuf'
    exact ⟨hdeg, rfl, by rw [elemsForest, List.nil_append]⟩
  | cons t ts ih =>
    intro buf buf' hins hdeg
    rw [insertAll] at hins
    split at hins
    · exact Option.noConfusion hins
    · rename_i b1 heq
      obtain ⟨hd1, hl1, hp1⟩ := insertTree_deg_all heq hdeg
      obtain ⟨hd2, hl2, hp2⟩ := ih b1 buf' hins hd1
      refine ⟨hd2, by omega, ?_⟩
      rw [elemsForest]
      have hstep1 : (elemsForest ts ++ bufElems b1).Perm
          (elemsForest ts ++ (t.elems ++ bufElems buf)) :=
        List.Perm.append_left _ hp1
      have hstep2 : (elemsForest ts ++ (t.elems ++ bufElems buf)).Perm
          ((t.elems ++ elemsForest ts) ++ bufElems buf) := by
        rw [← List.append_assoc]
        exact List.Perm.append_right _ List.perm_append_comm
      exact (hp2.trans hstep1).trans hstep2

theorem insertAll_heap :
    ∀ (ts : List (Tree α)) (buf buf' : List (Option (Tree α))),
      insertAll buf ts = some buf' → BufHeap buf →
      (∀ t ∈ ts, t.isHeap = true) → BufHeap buf' := by
  intro ts
  induction ts with
  | nil =>
    intro buf buf' hins hheap _
    rw [insertAll] at hins
    have hbuf' := Option.some.inj hins
    subst hbuf'
    exact hheap
  | cons t ts ih =>
    intro buf buf' hins hheap hts
    rw [insertAll] at hins
    split at hins
    · exact Option.noConfusion hins
    · rename_i b1 heq
      have h1 : BufHeap b1 := insertTree_heap (countSome buf) buf b1 t le_rfl
        heq hheap (hts t (List.mem_cons_self t ts))
      exact ih b1 buf' hins h1 fun u hu => hts u (List.mem_cons_of_mem t hu)

theorem insertAll_binom :
    ∀ (ts : List (Tree α)) (buf buf' : List (Option (Tree α))),
      insertAll buf ts = some buf' → BufBinom buf →
      (∀ t ∈ ts, t.binomRank t.degree = true) → BufBinom buf' := by
  intro ts
  induction ts with
  | nil =>
    intro buf buf' hins hbin _
    rw [insertAll] at hins
    have hbuf' := Option.some.inj hins
    subst hbuf'
    exact hbin
  | cons t ts ih =>
    intro buf buf' hins hbin hts
    rw [insertAll] at hins
    split at hins
    · exact Option.noConfusion hins
    · rename_i b1 heq
      have h1 : BufBinom b1 := insertTree_binom (countSome buf) buf b1 t le_rfl
        heq hbin (hts t (List.mem_cons_self t ts))
      exact ih b1 buf' hins h1 fun u hu => hts u (List.mem_cons_of_mem t hu)

theorem insertAll_isSome {n : Nat} (hn : n ≠ 0) :
    ∀ (ts : List (Tree α)) (buf : List (Option (Tree α))),
      BufBinom buf → (∀ t ∈ ts, t.binomRank t.degree = true) →
      bufCount buf + countForest ts ≤ n → Nat.log2 n + 1 ≤ buf.length →
      ∃ buf', insertAll buf ts = some buf' := by
  intro ts
  induction ts with
  | nil =>
    intro buf _ _ _ _
    exact ⟨buf, rfl⟩
  | cons t ts ih =>
    intro buf hbin hts hcnt hlen
    rw [countForest] at hcnt
    obtain ⟨b1, hb1⟩ := insertTree_isSome hn (countSome buf) buf t le_rfl hbin
      (hts t (List.mem_cons_self t ts)) (by omega) hlen
    have hbin1 : BufBinom b1 := insertTree_binom (countSome buf) buf b1 t le_rfl
      hb1 hbin (hts t (List.mem_cons_self t ts))
    have hc1 : bufCount b1 = t.count_nodes + bufCount buf :=
      insertTree_count hb1 hbin.bufDeg
    have hl1 : b1.length = buf.length := (insertTree_deg_all hb1 hbin.bufDeg).2.1
    obtain ⟨buf', hbuf'⟩ := ih b1 hbin1
      (fun u hu => hts u (List.mem_cons_of_mem t hu)) (by omega) (by omega)
    refine ⟨buf', ?_⟩
    rw [insertAll, hb1]
    exact hbuf'

/-- Occupied buckets hold trees whose degree equals the slot index, so the
concatenation of the occupied buckets in slot order lists strictly
increasing degrees. -/
theorem bufDeg_sorted :
    ∀ (buf : List (Option (Tree α))) (k : Nat),
      (∀ (i : Nat) (t : Tree α), buf[i]? = some (some t) → t.degree = k + i) →
      ((buf.filterMap id).map Tree.degree).Pairwise (· < ·) ∧
        ∀ t ∈ buf.filterMap id, k ≤ t.degree := by
  intro buf
  induction buf with
  | nil => intro k _; simp
  | cons o buf ih =>
    intro k h
    have htail : ∀ (i : Nat) (t : Tree α), buf[i]? = some (some t) →
        t.degree = (k + 1) + i := by
      intro i t hi
      have := h (i + 1) t (by simpa using hi)
      omega
    obtain ⟨hpair, hge⟩ := ih (k + 1) htail
    cases o with
    | none =>
      refine ⟨by simpa using hpair, ?_⟩
      intro t ht
      have := hge t (by simpa using ht)
      omega
    | some t =>
      have ht0 : t.degree = k := by
        have := h 0 t (by simp)
        omega
      have hfm : (some t :: buf).filterMap id = t :: buf.filterMap id := by simp
      rw [hfm, List.map_cons, List.pairwise_cons]
      refine ⟨⟨?_, hpair⟩, ?_⟩
      · intro b hb
        rcases List.mem_map.mp hb with ⟨u, hu, rfl⟩
        have := hge u hu
        omega
      · intro u hu
        rcases List.mem_cons.mp hu with rfl | hu
        · omega
        · have := hge u hu
          omega

end Fh

namespace Fh

variable {α : Type}

theorem mem_filterMap_id {buf : List (Option (Tree α))} {t : Tree α}
    (h : t ∈ buf.filterMap id) : ∃ i : Nat, buf[i]? = some (some t) := by
  rcases List.mem_filterMap.mp h with ⟨a, ha, hat⟩
  have : some t ∈ buf := by
    cases a with
    | none => exact Option.noConfusion hat
    | some b => rwa [Option.some.inj hat] at ha
  exact List.mem_iff_getElem?.mp this

theorem filterMap_id_replicate_none (cap : Nat) :
    (List.replicate cap (none : Option (Tree α))).filterMap id = [] := by
  rw [List.filterMap_replicate]
  rfl

theorem bufElems_replicate_none (cap : Nat) :
    bufElems (List.replicate cap (none : Option (Tree α))) = [] := by
  rw [bufElems, filterMap_id_replicate_none, elemsForest]

theorem bufCount_replicate_none (cap : Nat) :
    bufCount (List.replicate cap (none : Option (Tree α))) = 0 := by
  rw [bufCount, filterMap_id_replicate_none, countForest]

theorem replicate_none_no_tree {cap i : Nat} {t : Tree α}
    (h : (List.replicate cap (none : Option (Tree α)))[i]? = some (some t)) :
    False := by
  rw [List.getElem?_replicate] at h
  split at h
  · exact Option.noConfusion (Option.some.inj h)
  · exact Option.noConfusion h

theorem bufDeg_replicate (cap : Nat) :
    BufDeg (List.replicate cap (none : Option (Tree α))) :=
  fun _ _ h => absurd h fun h => replicate_none_no_tree h

theorem bufBinom_replicate (cap : Nat) :
    BufBinom (List.replicate cap (none : Option (Tree α))) :=
  fun _ _ h => absurd h fun h => replicate_none_no_tree h

theorem bufHeap_replicate [LinearOrder α] (cap : Nat) :
    BufHeap (List.replicate cap (none : Option (Tree α))) :=
  fun _ _ h => absurd h fun h => replicate_none_no_tree h

theorem countForest_reverse (ts : List (Tree α)) :
    countForest ts.reverse = countForest ts := by
  rw [countForest_eq, countForest_eq]
  exact (elemsForest_perm ts.reverse_perm).length_eq

end Fh

namespace Fh

variable {α : Type} [LinearOrder α]

/-- Whenever v1's `rebalance` completes, the resulting roots have strictly
increasing (hence pairwise distinct) degrees. -/
theorem rebalance1_degrees {roots out : List (Tree α)}
    (h : rebalance1 roots = some out) :
    (out.map Tree.degree).Pairwise (· < ·) := by
  rw [rebalance1] at h
  split at h
  · rename_i hemp
    have : out = roots := (Option.some.inj h).symm
    subst this
    rw [List.isEmpty_iff.mp hemp]
    simp
  · split at h
    · exact Option.noConfusion h
    · split at h
      · exact Option.noConfusion h
      · rename_i buf' hins
        have hdeg : BufDeg buf' :=
          (insertAll_deg roots _ buf' hins (bufDeg_replicate _)).1
        have hout : out = buf'.filterMap id := (Option.some.inj h).symm
        subst hout
        refine (bufDeg_sorted buf' 0 ?_).1
        intro i t hi
        have := hdeg i t hi
        omega

/-- Whenever v2's `rebalance` completes, the resulting roots have strictly
increasing (hence pairwise distinct) degrees. -/
theorem rebalance2_degrees {roots out : List (Tree α)} {nodes : Nat}
    (h : rebalance2 roots nodes = some out) :
    (out.map Tree.degree).Pairwise (· < ·) := by
  rw [rebalance2] at h
  split at h
  · rename_i hemp
    have : out = roots := (Option.some.inj h).symm
    subst this
    rw [List.isEmpty_iff.mp hemp]
    simp
  · split at h
    · exact Option.noConfusion h
    · split at h
      · exact Option.noConfusion h
      · rename_i buf' hins
        have hdeg : BufDeg buf' :=
          (insertAll_deg roots.reverse _ buf' hins (bufDeg_replicate _)).1
        have hout : out = buf'.filterMap id := (Option.some.inj h).symm
        subst hout
        refine (bufDeg_sorted buf' 0 ?_).1
        intro i t hi
        have := hdeg i t hi
        omega

/-- Whenever v1's `rebalance` completes, the multiset of stored values is
unchanged. -/
theorem rebalance1_perm {roots out : List (Tree α)}
    (h : rebalance1 roots = some out) :
    (elemsForest out).Perm (elemsForest roots) := by
  rw [rebalance1] at h
  split at h
  · have : out = roots := (Option.some.inj h).symm
    subst this
    exact List.Perm.refl _
  · split at h
    · exact Option.noConfusion h
    · split at h
      · exact Option.noConfusion h
      · rename_i buf' hins
        have hp := (insertAll_deg roots _ buf' hins (bufDeg_replicate _)).2.2
        rw [bufElems_replicate_none, List.append_nil] at hp
        have hout : out = buf'.filterMap id := (Option.some.inj h).symm
        subst hout
        exact hp

/-- Whenever v2's `rebalance` completes, the multiset of stored values is
unchanged. -/
theorem rebalance2_perm {roots out : List (Tree α)} {nodes : Nat}
    (h : rebalance2 roots nodes = some out) :
    (elemsForest out).Perm (elemsForest roots) := by
  rw [rebalance2] at h
  split at h
  · have : out = roots := (Option.some.inj h).symm
    subst this
    exact List.Perm.refl _
  · split at h
    · exact Option.noConfusion h
    · split at h
      · exact Option.noConfusion h
      · rename_i buf' hins
        have hp := (insertAll_deg roots.reverse _ buf' hins
          (bufDeg_replicate _)).2.2
        rw [bufElems_replicate_none, List.append_nil] at hp
        have hout : out = buf'.filterMap id := (Option.some.inj h).symm
        subst hout
        exact hp.trans (elemsForest_perm roots.reverse_perm)

/-- Whenever v1's `rebalance` completes on heap-ordered trees, all output
trees are heap-ordered. -/
theorem rebalance1_heap {roots out : List (Tree α)}
    (h : rebalance1 roots = some out) (hh : ∀ t ∈ roots, t.isHeap = true) :
    ∀ t ∈ out, t.isHeap = true := by
  rw [rebalance1] at h
  split at h
  · have : out = roots := (Option.some.inj h).symm
    subst this
    exact hh
  · split at h
    · exact Option.noConfusion h
    · split at h
      · exact Option.noConfusion h
      · rename_i buf' hins
        have hheap : BufHeap buf' :=
          insertAll_heap roots _ buf' hins (bufHeap_replicate _) hh
        have hout : out = buf'.filterMap id := (Option.some.inj h).symm
        subst hout
        intro t ht
        rcases mem_filterMap_id ht with ⟨i, hi⟩
        exact hheap i t hi

/-- Whenever v2's `rebalance` completes on heap-ordered trees, all output
trees are heap-ordered. -/
theorem rebalance2_heap {roots out : List (Tree α)} {nodes : Nat}
    (h : rebalance2 roots nodes = some out)
    (hh : ∀ t ∈ roots, t.isHeap = true) :
    ∀ t ∈ out, t.isHeap = true := by
  rw [rebalance2] at h
  split at h
  · have : out = roots := (Option.some.inj h).symm
    subst this
    exact hh
  · split at h
    · exact Option.noConfusion h
    · split at h
      · exact Option.noConfusion h
      · rename_i buf' hins
        have hheap : BufHeap buf' := insertAll_heap roots.reverse _ buf' hins
          (bufHeap_replicate _) fun t ht => hh t (List.mem_reverse.mp ht)
        have hout : out = buf'.filterMap id := (Option.some.inj h).symm
        subst hout
        intro t ht
        rcases mem_filterMap_id ht with ⟨i, hi⟩
        exact hheap i t hi

/-- Whenever v1's `rebalance` completes on binomial trees, all output trees
are binomial. -/
theorem rebalance1_binom {roots out : List (Tree α)}
    (h : rebalance1 roots = some out)
    (hb : ∀ t ∈ roots, t.binomRank t.degree = true) :
    ∀ t ∈ out, t.binomRank t.degree = true := by
  rw [rebalance1] at h
  split at h
  · have : out = roots := (Option.some.inj h).symm
    subst this
    exact hb
  · split at h
    · exact Option.noConfusion h
    · split at h
      · exact Option.noConfusion h
      · rename_i buf' hins
        have hbin : BufBinom buf' :=
          insertAll_binom roots _ buf' hins (bufBinom_replicate _) hb
        have hout : out = buf'.filterMap id := (Option.some.inj h).symm
        subst hout
        intro t ht
        rcases mem_filterMap_id ht with ⟨i, hi⟩
        have := hbin i t hi
        rwa [Tree.binomRank_degree this]

/-- Whenever v2's `rebalance` completes on binomial trees, all output trees
are binomial. -/
theorem rebalance2_binom {roots out : List (Tree α)} {nodes : Nat}
    (h : rebalance2 roots nodes = some out)
    (hb : ∀ t ∈ roots, t.binomRank t.degree = true) :
    ∀ t ∈ out, t.binomRank t.degree = true := by
  rw [rebalance2] at h
  split at h
  · have : out = roots := (Option.some.inj h).symm
    subst this
    exact hb
  · split at h
    · exact Option.noConfusion h
    · split at h
      · exact Option.noConfusion h
      · rename_i buf' hins
        have hbin : BufBinom buf' := insertAll_binom roots.reverse _ buf' hins
          (bufBinom_replicate _) fun t ht => hb t (List.mem_reverse.mp ht)
        have hout : out = buf'.filterMap id := (Option.some.inj h).symm
        subst hout
        intro t ht
        rcases mem_filterMap_id ht with ⟨i, hi⟩
        have := hbin i t hi
        rwa [Tree.binomRank_degree this]

/-- On a non-empty binomial forest, v1's `rebalance` always completes: the
recomputed node count is positive, and every bucket access is in range. -/
theorem rebalance1_isSome {roots : List (Tree α)} (hne : roots ≠ [])
    (hb : ∀ t ∈ roots, t.binomRank t.degree = true) :
    ∃ out, rebalance1 roots = some out := by
  have hn1 : 1 ≤ countForest roots := countForest_pos hne
  have hn0 : countForest roots ≠ 0 := by omega
  obtain ⟨buf', hins⟩ := insertAll_isSome hn0 roots
    (List.replicate (ilog2 (countForest roots) + 1) none)
    (bufBinom_replicate _) hb
    (by rw [bufCount_replicate_none]; omega)
    (by rw [List.length_replicate, ilog2_eq_log2])
  refine ⟨buf'.filterMap id, ?_⟩
  rw [rebalance1]
  rw [if_neg (by simpa using hne), if_neg hn0, hins]

/-- On a non-empty binomial forest with the correct node count passed in,
v2's `rebalance` always completes. -/
theorem rebalance2_isSome {roots : List (Tree α)} {nodes : Nat}
    (hne : roots ≠ []) (hnodes : nodes = countForest roots)
    (hb : ∀ t ∈ roots, t.binomRank t.degree = true) :
    ∃ out, rebalance2 roots nodes = some out := by
  have hn1 : 1 ≤ countForest roots := countForest_pos hne
  have hn0 : nodes ≠ 0 := by omega
  obtain ⟨buf', hins⟩ := insertAll_isSome hn0 roots.reverse
    (List.replicate (ilog2 nodes + 1) none)
    (bufBinom_replicate _) (fun t ht => hb t (List.mem_reverse.mp ht))
    (by rw [bufCount_replicate_none, countForest_reverse]; omega)
    (by rw [List.length_replicate, ilog2_eq_log2])
  refine ⟨buf'.filterMap id, ?_⟩
  rw [rebalance2]
  rw [if_neg (by simpa using hne), if_neg hn0, hins]

end Fh

namespace Fh

variable {α : Type}

theorem set_self_of_getElem? {β : Type} :
    ∀ (l : List β) (i : Nat) (a : β), l[i]? = some a → l.set i a = l
  | [], i, a => by intro h; simp at h
  | x :: xs, 0, a => by
    intro h
    simp only [List.getElem?_cons_zero, Option.some.injEq] at h
    subst h
    rfl
  | x :: xs, i + 1, a => by
    intro h
    simp only [List.getElem?_cons_succ] at h
    rw [List.set_cons_succ, set_self_of_getElem? xs i a h]

theorem cons_set_perm {β : Type} :
    ∀ (xs : List β) (k : Nat) (x b : β), xs[k]? = some b →
      (b :: xs.set k x).Perm (x :: xs)
  | [], k, x, b => by intro h; simp at h
  | c :: t, 0, x, b => by
    intro h
    simp only [List.getElem?_cons_zero, Option.some.injEq] at h
    subst h
    exact List.Perm.swap x c t
  | c :: t, k + 1, x, b => by
    intro h
    simp only [List.getElem?_cons_succ] at h
    have ih := cons_set_perm t k x b h
    rw [List.set_cons_succ]
    exact ((List.Perm.swap c b _).trans (ih.cons c)).trans (List.Perm.swap x c t)

theorem listSwap_perm {β : Type} :
    ∀ (l : List β) (i j : Nat), (listSwap l i j).Perm l := by
  intro l
  induction l with
  | nil => intro i j; rw [listSwap]; simp
  | cons x xs ih =>
    intro i j
    cases i with
    | zero =>
      cases j with
      | zero =>
        rw [listSwap]
        simp only [List.getElem?_cons_zero]
        rw [List.set_set, set_self_of_getElem? (x :: xs) 0 x (by simp)]
      | succ k =>
        rw [listSwap]
        simp only [List.getElem?_cons_zero, List.getElem?_cons_succ]
        cases hk : xs[k]? with
        | none => exact List.Perm.refl _
        | some b =>
          show ((((x :: xs).set 0 b).set (k + 1) x)).Perm (x :: xs)
          simp only [List.set_cons_zero, List.set_cons_succ]
          exact cons_set_perm xs k x b hk
    | succ m =>
      cases j with
      | zero =>
        rw [listSwap]
        simp only [List.getElem?_cons_zero, List.getElem?_cons_succ]
        cases hm : xs[m]? with
        | none => exact List.Perm.refl _
        | some a =>
          show ((((x :: xs).set (m + 1) x).set 0 a)).Perm (x :: xs)
          simp only [List.set_cons_zero, List.set_cons_succ]
          exact cons_set_perm xs m x a hm
      | succ k =>
        rw [listSwap]
        simp only [List.getElem?_cons_succ]
        cases hm : xs[m]? with
        | none =>
          cases hk : xs[k]? with
          | none => exact List.Perm.refl _
          | some b => exact List.Perm.refl _
        | some a =>
          cases hk : xs[k]? with
          | none => exact List.Perm.refl _
          | some b =>
            have hxs := ih m k
            rw [listSwap, hm, hk] at hxs
            show ((((x :: xs).set (m + 1) b).set (k + 1) a)).Perm (x :: xs)
            simp only [List.set_cons_succ]
            exact List.Perm.cons x hxs

theorem listSwap_length {β : Type} (l : List β) (i j : Nat) :
    (listSwap l i j).length = l.length :=
  (listSwap_perm l i j).length_eq

end Fh

namespace Fh

variable {α : Type} [LinearOrder α]

theorem minIdxVal_eq_none_iff (roots : List (Tree α)) :
    minIdxVal roots = none ↔ roots = [] := by
  cases roots with
  | nil => simp [minIdxVal]
  | cons t ts =>
    rw [minIdxVal]
    constructor
    · intro h
      cases h2 : minIdxVal ts with
      | none =>
        rw [h2] at h
        exact Option.noConfusion h
      | some p =>
        rw [h2] at h
        obtain ⟨j, m⟩ := p
        change (if t.node ≤ m then some (0, t.node)
          else some (j + 1, m)) = none at h
        by_cases hle : t.node ≤ m
        · rw [if_pos hle] at h
          exact Option.noConfusion h
        · rw [if_neg hle] at h
          exact Option.noConfusion h
    · intro h
      exact List.noConfusion h

/-- Specification of the minimum scan: the returned index is in range, it
indexes a root holding the returned value, that value is a lower bound for
all root values, and every strictly earlier root has a strictly greater
value (Rust's `min_by_key` keeps the first of equally-minimal elements). -/
theorem minIdxVal_spec :
    ∀ (roots : List (Tree α)) (j : Nat) (m : α),
      minIdxVal roots = some (j, m) →
      j < roots.length ∧ roots[j]?.map Tree.node = some m ∧
        (∀ t ∈ roots, m ≤ t.node) ∧
        (∀ (i : Nat) (u : Tree α), i < j → roots[i]? = some u → m < u.node) := by
  intro roots
  induction roots with
  | nil => intro j m h; exact Option.noConfusion h
  | cons t ts ih =>
    intro j m h
    rw [minIdxVal] at h
    cases h2 : minIdxVal ts with
    | none =>
      rw [h2] at h
      have hts : ts = [] := (minIdxVal_eq_none_iff ts).mp h2
      subst hts
      change some ((0 : Nat), t.node) = some (j, m) at h
      have hpair := Option.some.inj h
      rw [Prod.mk.injEq] at hpair
      obtain ⟨hj0, hm0⟩ := hpair
      subst hj0
      subst hm0
      refine ⟨by simp, by simp, ?_, ?_⟩
      · intro u hu
        rcases List.mem_singleton.mp hu with rfl
        exact le_refl _
      · intro i u hi _
        omega
    | some p =>
      obtain ⟨j', m'⟩ := p
      rw [h2] at h
      change (if t.node ≤ m' then some (0, t.node)
        else some (j' + 1, m')) = some (j, m) at h
      obtain ⟨hj1, hg1, hall1, hfirst1⟩ := ih j' m' h2
      by_cases hle : t.node ≤ m'
      · rw [if_pos hle] at h
        have hpair := Option.some.inj h
        rw [Prod.mk.injEq] at hpair
        obtain ⟨hj0, hm0⟩ := hpair
        subst hj0
        subst hm0
        refine ⟨by simp, by simp, ?_, ?_⟩
        · intro u hu
          rcases List.mem_cons.mp hu with rfl | hu
          · exact le_refl _
          · exact le_trans hle (hall1 u hu)
        · intro i u hi _
          omega
      · rw [if_neg hle] at h
        have hpair := Option.some.inj h
        rw [Prod.mk.injEq] at hpair
        obtain ⟨hj0, hm0⟩ := hpair
        subst hj0
        subst hm0
        have hlt : m' < t.node := lt_of_not_le hle
        refine ⟨by simpa using hj1, by simpa using hg1, ?_, ?_⟩
        · intro u hu
          rcases List.mem_cons.mp hu with rfl | hu
          · exact le_of_lt hlt
          · exact hall1 u hu
        · intro i u hi hget
          cases i with
          | zero =>
            simp only [List.getElem?_cons_zero, Option.some.injEq] at hget
            subst hget
            exact hlt
          | succ i =>
            simp only [List.getElem?_cons_succ] at hget
            exact hfirst1 i u (by omega) hget

theorem bring_min_to_front_perm (roots : List (Tree α)) :
    (bring_min_to_front roots).Perm roots := by
  rw [bring_min_to_front]
  cases h : minIdxVal roots with
  | none => exact List.Perm.refl _
  | some p =>
    obtain ⟨idx, m⟩ := p
    have hsplit : roots.take idx ++ roots.drop idx = roots :=
      List.take_append_drop idx roots
    have hperm : (roots.drop idx ++ roots.take idx).Perm
        (roots.take idx ++ roots.drop idx) := List.perm_append_comm
    rw [hsplit] at hperm
    exact hperm

theorem bring_min_to_front_head {roots : List (Tree α)} {j : Nat} {m : α}
    (h : minIdxVal roots = some (j, m)) :
    (bring_min_to_front roots).head? = roots[j]? := by
  rw [bring_min_to_front, h]
  obtain ⟨hj, _, _, _⟩ := minIdxVal_spec roots j m h
  have hd : roots.drop j ≠ [] := by
    intro hcontra
    have := List.drop_eq_nil_iff.mp hcontra
    omega
  rw [List.head?_append_of_ne_nil _ hd, List.head?_drop]

theorem order_min_perm (roots : List (Tree α)) :
    (order_min roots).Perm roots := by
  rw [order_min]
  cases h : minIdxVal roots with
  | none => exact List.Perm.refl _
  | some p =>
    obtain ⟨idx, m⟩ := p
    exact listSwap_perm roots idx (roots.length - 1)

theorem order_min_getLast {roots : List (Tree α)} {j : Nat} {m : α}
    (h : minIdxVal roots = some (j, m)) :
    (order_min roots).getLast? = roots[j]? := by
  rw [order_min, h]
  obtain ⟨hj, _, _, _⟩ := minIdxVal_spec roots j m h
  have hlast : roots.length - 1 < roots.length := by omega
  have ha := List.getElem?_eq_getElem hj
  have hb := List.getElem?_eq_getElem hlast
  simp only [listSwap, ha, hb]
  rw [List.getLast?_eq_getElem?, List.length_set, List.length_set]
  rw [List.getElem?_set_self (by rw [List.length_set]; omega)]

end Fh

namespace Fh

variable {α : Type} [LinearOrder α]

/-- All trees of a forest satisfy the min-heap property. -/
def forestHeap (ts : List (Tree α)) : Prop := ∀ t ∈ ts, t.isHeap = true

/-- All trees of a forest are binomial trees (of their own degree). -/
def forestBinom (ts : List (Tree α)) : Prop :=
  ∀ t ∈ ts, t.binomRank t.degree = true

/-- Invariant of the v1 heap: heap-ordered binomial roots, with the front
root's value a lower bound for every root value. -/
def Inv1 (h : Heap1 α) : Prop :=
  forestHeap h.roots ∧ forestBinom h.roots ∧
    ∀ hd, h.roots.head? = some hd → ∀ t ∈ h.roots, hd.node ≤ t.node

/-- Invariant of the v2 heap: heap-ordered binomial roots, the `len` field
equal to the total node count, and the last root's value a lower bound for
every root value. -/
def Inv2 (h : Heap2 α) : Prop :=
  forestHeap h.roots ∧ forestBinom h.roots ∧ h.len = countForest h.roots ∧
    ∀ lst, h.roots.getLast? = some lst → ∀ t ∈ h.roots, lst.node ≤ t.node

theorem mem_elemsForest {x : α} :
    ∀ {ts : List (Tree α)}, x ∈ elemsForest ts ↔ ∃ t ∈ ts, x ∈ t.elems := by
  intro ts
  induction ts with
  | nil => simp [elemsForest]
  | cons t ts ih =>
    rw [elemsForest]
    simp only [List.mem_append, List.mem_cons, ih]
    constructor
    · rintro (hx | ⟨u, hu, hxu⟩)
      · exact ⟨t, Or.inl rfl, hx⟩
      · exact ⟨u, Or.inr hu, hxu⟩
    · rintro ⟨u, rfl | hu, hxu⟩
      · exact Or.inl hxu
      · exact Or.inr ⟨u, hu, hxu⟩

theorem Tree.isHeap_children {t : Tree α} (h : t.isHeap = true) :
    ∀ c ∈ t.children, c.isHeap = true := by
  cases t with
  | mk v cs =>
    rw [Tree.isHeap] at h
    intro c hc
    exact ((heapChildren_iff v cs).mp h c hc).2

theorem Tree.binomRank_children {t : Tree α} (h : t.binomRank t.degree = true) :
    ∀ c ∈ t.children, c.binomRank c.degree = true := by
  cases t with
  | mk v cs =>
    rw [Tree.binomRank, Bool.and_eq_true] at h
    rw [Tree.children]
    exact binomChildren_mem h.2

theorem forestHeap_perm {ts us : List (Tree α)} (hp : ts.Perm us)
    (h : forestHeap ts) : forestHeap us :=
  fun t ht => h t (hp.mem_iff.mpr ht)

theorem forestBinom_perm {ts us : List (Tree α)} (hp : ts.Perm us)
    (h : forestBinom ts) : forestBinom us :=
  fun t ht => h t (hp.mem_iff.mpr ht)

theorem forestHeap_append {ts us : List (Tree α)} (h1 : forestHeap ts)
    (h2 : forestHeap us) : forestHeap (ts ++ us) := by
  intro t ht
  rcases List.mem_append.mp ht with ht | ht
  · exact h1 t ht
  · exact h2 t ht

theorem forestBinom_append {ts us : List (Tree α)} (h1 : forestBinom ts)
    (h2 : forestBinom us) : forestBinom (ts ++ us) := by
  intro t ht
  rcases List.mem_append.mp ht with ht | ht
  · exact h1 t ht
  · exact h2 t ht

/-- A root that bounds all root values of a heap-ordered forest bounds all
stored values. -/
theorem le_all_elems {ts : List (Tree α)} {m : α} (hh : forestHeap ts)
    (hroots : ∀ t ∈ ts, m ≤ t.node) : ∀ x ∈ elemsForest ts, m ≤ x := by
  intro x hx
  rcases mem_elemsForest.mp hx with ⟨t, ht, hxt⟩
  exact le_trans (hroots t ht) (Tree.isHeap_le_elems t (hh t ht) x hxt)

theorem listSwap_concat2 {β : Type} :
    ∀ (l : List β) (a b : β),
      listSwap (l ++ [a, b]) l.length (l.length + 1) = l ++ [b, a]
  | [], a, b => by
    rw [listSwap]
    rfl
  | x :: l, a, b => by
    have ih := listSwap_concat2 l a b
    rw [listSwap] at ih ⊢
    simp only [List.cons_append, List.length_cons, List.getElem?_cons_succ]
    cases h1 : (l ++ [a, b])[l.length]? with
    | none =>
      rw [h1] at ih
      have : (l ++ [a, b])[l.length]? = some a := by
        rw [List.getElem?_append]
        simp
      rw [this] at h1
      exact Option.noConfusion h1
    | some c =>
      cases h2 : (l ++ [a, b])[l.length + 1]? with
      | none =>
        rw [h1, h2] at ih
        have : (l ++ [a, b])[l.length + 1]? = some b := by
          rw [List.getElem?_append]
          simp
        rw [this] at h2
        exact Option.noConfusion h2
      | some d =>
        rw [h1, h2] at ih
        change ((l ++ [a, b]).set l.length d).set (l.length + 1) c
          = l ++ [b, a] at ih
        show (((x :: (l ++ [a, b])).set (l.length + 1) d).set (l.length + 1 + 1) c)
          = x :: (l ++ [b, a])
        simp only [List.set_cons_succ]
        rw [ih]

/-- Rust `FibonacciHeap::push` (v1) preserves the invariant and adds the
item to the stored multiset. -/
theorem push1_spec {h : Heap1 α} (hInv : Inv1 h) (x : α) :
    Inv1 (h.push x) ∧
      (elemsForest (h.push x).roots).Perm (x :: elemsForest h.roots) := by
  obtain ⟨hheap, hbin, hanch⟩ := hInv
  rw [Heap1.push]
  cases hr : h.roots with
  | nil =>
    have hguard : (h.peek.map fun o => decide (x ≤ o)).getD true = true := by
      rw [Heap1.peek, hr]
      rfl
    rw [if_pos hguard]
    refine ⟨⟨?_, ?_, ?_⟩, ?_⟩
    · intro t ht
      rcases List.mem_singleton.mp (by simpa [hr] using ht) with rfl
      exact Tree.isHeap_new x
    · intro t ht
      rcases List.mem_singleton.mp (by simpa [hr] using ht) with rfl
      simpa [Tree.new, Tree.degree, Tree.children] using Tree.binomRank_new x
    · intro hd hhd t ht
      simp only [hr] at hhd ht
      rcases List.mem_singleton.mp ht with rfl
      simp only [List.head?_cons, Option.some.injEq] at hhd
      subst hhd
      exact le_refl _
    · simp [hr, elemsForest, Tree.elems_new]
  | cons hd rest =>
    rw [hr] at hheap hbin hanch
    have hpeek : h.peek = some hd.node := by
      rw [Heap1.peek, hr]
      rfl
    by_cases hle : x ≤ hd.node
    · rw [if_pos (by rw [hpeek]; exact decide_eq_true hle)]
      refine ⟨⟨?_, ?_, ?_⟩, ?_⟩
      · intro t ht
        rcases List.mem_cons.mp ht with rfl | ht
        · exact Tree.isHeap_new x
        · exact hheap t ht
      · intro t ht
        rcases List.mem_cons.mp ht with rfl | ht
        · simpa [Tree.new, Tree.degree, Tree.children] using Tree.binomRank_new x
        · exact hbin t ht
      · intro hd' hhd' t ht
        simp only [List.head?_cons, Option.some.injEq] at hhd'
        subst hhd'
        rcases List.mem_cons.mp ht with rfl | ht
        · exact le_refl _
        · exact le_trans hle (hanch hd rfl t ht)
      · rw [elemsForest, Tree.elems_new]
        exact List.Perm.refl _
    · rw [if_neg (by rw [hpeek]; exact fun hc => hle (of_decide_eq_true hc))]
      have hxgt : hd.node ≤ x := le_of_not_le hle
      refine ⟨⟨?_, ?_, ?_⟩, ?_⟩
      · refine forestHeap_append hheap ?_
        intro t ht
        rcases List.mem_singleton.mp ht with rfl
        exact Tree.isHeap_new x
      · refine forestBinom_append hbin ?_
        intro t ht
        rcases List.mem_singleton.mp ht with rfl
        simpa [Tree.new, Tree.degree, Tree.children] using Tree.binomRank_new x
      · intro hd' hhd' t ht
        have hhead : ((hd :: rest) ++ [Tree.new x]).head? = some hd := rfl
        rw [hhead, Option.some.injEq] at hhd'
        subst hhd'
        rcases List.mem_append.mp ht with ht | ht
        · rcases List.mem_cons.mp ht with rfl | ht
          · exact le_refl _
          · exact hanch hd rfl t (List.mem_cons_of_mem hd ht)
        · rcases List.mem_singleton.mp ht with rfl
          rw [Tree.new, Tree.node]
          exact hxgt
      · have hx : elemsForest [Tree.new x] = [x] := by
          simp [elemsForest, Tree.elems_new]
        have hshape : elemsForest (hd :: (rest ++ [Tree.new x]))
            = elemsForest (hd :: rest) ++ [x] := by
          rw [elemsForest, elemsForest_append, hx, elemsForest,
            List.append_assoc]
        show (elemsForest (hd :: (rest ++ [Tree.new x]))).Perm
          (x :: elemsForest (hd :: rest))
        rw [hshape]
        exact List.perm_append_comm

end Fh

namespace Fh

variable {α : Type} [LinearOrder α]

theorem countForest_new (x : α) : countForest [Tree.new x] = 1 := rfl

/-- Rust `FibonacciHeap::push` (v2) preserves the invariant, adds the item
to the stored multiset, and increments `len`. -/
theorem push2_spec {h : Heap2 α} (hInv : Inv2 h) (x : α) :
    Inv2 (h.push x) ∧
      (elemsForest (h.push x).roots).Perm (x :: elemsForest h.roots) ∧
      (h.push x).len = h.len + 1 := by
  obtain ⟨hheap, hbin, hlen, hanch⟩ := hInv
  rw [Heap2.push]
  cases hr : h.roots.getLast? with
  | none =>
    have hroots : h.roots = [] := List.getLast?_eq_none_iff.mp hr
    have hguard : (h.peek.map fun o => decide (x ≤ o)).getD true = true := by
      rw [Heap2.peek, hr]
      rfl
    rw [if_pos hguard, hroots]
    refine ⟨⟨?_, ?_, ?_, ?_⟩, ?_, rfl⟩
    · intro t ht
      rcases List.mem_singleton.mp (by simpa using ht) with rfl
      exact Tree.isHeap_new x
    · intro t ht
      rcases List.mem_singleton.mp (by simpa using ht) with rfl
      simpa [Tree.new, Tree.degree, Tree.children] using Tree.binomRank_new x
    · rw [hroots] at hlen
      rw [countForest] at hlen
      show h.len + 1 = countForest ([] ++ [Tree.new x])
      rw [List.nil_append, countForest_new]
      omega
    · intro lst hlst t ht
      rcases List.mem_singleton.mp (by simpa using ht) with rfl
      have hlsteq : Tree.new x = lst := by simpa using hlst
      subst hlsteq
      exact le_refl _
    · show (elemsForest ([] ++ [Tree.new x])).Perm (x :: elemsForest [])
      simp [elemsForest, Tree.elems_new]
  | some lst =>
    have hsplit : h.roots.dropLast ++ [lst] = h.roots :=
      List.dropLast_append_getLast? lst hr
    have hpeek : h.peek = some lst.node := by
      rw [Heap2.peek, hr]
      rfl
    by_cases hle : x ≤ lst.node
    · rw [if_pos (by rw [hpeek]; exact decide_eq_true hle)]
      refine ⟨⟨?_, ?_, ?_, ?_⟩, ?_, rfl⟩
      · refine forestHeap_append hheap ?_
        intro t ht
        rcases List.mem_singleton.mp ht with rfl
        exact Tree.isHeap_new x
      · refine forestBinom_append hbin ?_
        intro t ht
        rcases List.mem_singleton.mp ht with rfl
        simpa [Tree.new, Tree.degree, Tree.children] using Tree.binomRank_new x
      · show h.len + 1 = countForest (h.roots ++ [Tree.new x])
        rw [countForest_append, countForest_new]
        omega
      · intro lst' hlst' t ht
        rw [List.getLast?_concat, Option.some.injEq] at hlst'
        subst hlst'
        rcases List.mem_append.mp ht with ht | ht
        · rw [Tree.new, Tree.node]
          exact le_trans hle (hanch lst hr t ht)
        · rcases List.mem_singleton.mp ht with rfl
          exact le_refl _
      · rw [elemsForest_append, elemsForest, Tree.elems_new, elemsForest,
          List.append_nil]
        exact List.perm_append_comm
    · rw [if_neg (by rw [hpeek]; exact fun hc => hle (of_decide_eq_true hc))]
      have hxgt : lst.node ≤ x := le_of_not_le hle
      have hlenroots : h.roots.length = h.roots.dropLast.length + 1 := by
        conv_lhs => rw [← hsplit]
        rw [List.length_append]
        simp only [List.length_cons, List.length_nil]
      have hshape : h.roots ++ [Tree.new x]
          = h.roots.dropLast ++ [lst, Tree.new x] := by
        conv_lhs => rw [← hsplit]
        rw [List.append_assoc]
        rfl
      have hidx1 : (h.roots ++ [Tree.new x]).length - 1 - 1
          = h.roots.dropLast.length := by
        rw [List.length_append, hlenroots]
        simp only [List.length_cons, List.length_nil]
        omega
      have hidx2 : (h.roots ++ [Tree.new x]).length - 1
          = h.roots.dropLast.length + 1 := by
        rw [List.length_append, hlenroots]
        simp only [List.length_cons, List.length_nil]
        omega
      have hswap : listSwap (h.roots ++ [Tree.new x])
          ((h.roots ++ [Tree.new x]).length - 1 - 1)
          ((h.roots ++ [Tree.new x]).length - 1)
          = h.roots.dropLast ++ [Tree.new x, lst] := by
        rw [hidx1, hidx2, hshape]
        exact listSwap_concat2 h.roots.dropLast lst (Tree.new x)
      have hperm : (h.roots.dropLast ++ [Tree.new x, lst]).Perm
          (h.roots ++ [Tree.new x]) := by
        rw [hswap.symm]
        exact listSwap_perm _ _ _
      have hperm0 : (h.roots ++ [Tree.new x]).Perm (Tree.new x :: h.roots) :=
        List.perm_append_comm
      have hmem : ∀ t ∈ h.roots.dropLast ++ [Tree.new x, lst],
          t = Tree.new x ∨ t ∈ h.roots := by
        intro t ht
        have := (hperm.trans hperm0).mem_iff.mp ht
        rcases List.mem_cons.mp this with rfl | ht2
        · exact Or.inl rfl
        · exact Or.inr ht2
      refine ⟨⟨?_, ?_, ?_, ?_⟩, ?_, rfl⟩
      · show forestHeap (listSwap (h.roots ++ [Tree.new x]) _ _)
        rw [hswap]
        intro t ht
        rcases hmem t ht with rfl | ht2
        · exact Tree.isHeap_new x
        · exact hheap t ht2
      · show forestBinom (listSwap (h.roots ++ [Tree.new x]) _ _)
        rw [hswap]
        intro t ht
        rcases hmem t ht with rfl | ht2
        · simpa [Tree.new, Tree.degree, Tree.children] using Tree.binomRank_new x
        · exact hbin t ht2
      · show h.len + 1 = countForest (listSwap (h.roots ++ [Tree.new x]) _ _)
        rw [hswap, countForest_eq,
          (elemsForest_perm (hperm.trans hperm0)).length_eq,
          elemsForest, Tree.elems_new, List.singleton_append, List.length_cons,
          ← countForest_eq]
        omega
      · intro lst' hlst' t ht
        show lst'.node ≤ t.node
        rw [show (listSwap (h.roots ++ [Tree.new x])
            ((h.roots ++ [Tree.new x]).length - 1 - 1)
            ((h.roots ++ [Tree.new x]).length - 1))
          = h.roots.dropLast ++ [Tree.new x, lst] from hswap] at hlst' ht
        have hlast : (h.roots.dropLast ++ [Tree.new x, lst]).getLast?
            = some lst := by
          rw [show h.roots.dropLast ++ [Tree.new x, lst]
            = (h.roots.dropLast ++ [Tree.new x]) ++ [lst] by
              rw [List.append_assoc]; rfl]
          exact List.getLast?_concat _
        rw [hlast, Option.some.injEq] at hlst'
        subst hlst'
        rcases hmem t ht with rfl | ht2
        · rw [Tree.new, Tree.node]
          exact hxgt
        · exact hanch lst hr t ht2
      · show (elemsForest (listSwap (h.roots ++ [Tree.new x]) _ _)).Perm
          (x :: elemsForest h.roots)
        rw [hswap]
        refine (elemsForest_perm (hperm.trans hperm0)).trans ?_
        rw [elemsForest, Tree.elems_new]
        exact List.Perm.refl _

end Fh

namespace Fh

variable {α : Type} [LinearOrder α]

theorem forestHeap_nil : forestHeap ([] : List (Tree α)) := by
  intro u hu
  exact absurd hu (List.not_mem_nil u)

theorem forestBinom_nil : forestBinom ([] : List (Tree α)) := by
  intro u hu
  exact absurd hu (List.not_mem_nil u)

theorem elemsForest_eq_nil {ts : List (Tree α)} (h : elemsForest ts = []) :
    ts = [] := by
  cases ts with
  | nil => rfl
  | cons t ts =>
    rw [elemsForest] at h
    cases t with
    | mk v cs =>
      rw [Tree.elems] at h
      exact List.noConfusion h

/-- Rust `FibonacciHeap::pop` (v1) on an empty heap: `None`, no change. -/
theorem pop1_empty {h : Heap1 α} (hr : h.roots = []) : h.pop = some (none, h) := by
  rw [Heap1.pop]
  split
  · rfl
  · rename_i t rest heq
    rw [hr] at heq
    exact List.noConfusion heq

/-- Rust `FibonacciHeap::pop` (v1) on a non-empty heap returns the front
root's value — the minimum — and re-establishes the invariant on a heap
holding the remaining multiset. -/
theorem pop1_spec {h : Heap1 α} (hInv : Inv1 h) {t : Tree α}
    {rest : List (Tree α)} (hr : h.roots = t :: rest) :
    ∃ h', h.pop = some (some t.node, h') ∧ Inv1 h' ∧
      (elemsForest h.roots).Perm (t.node :: elemsForest h'.roots) ∧
      ∀ x ∈ elemsForest h.roots, t.node ≤ x := by
  obtain ⟨hheap, hbin, hanch⟩ := hInv
  rw [hr] at hheap hbin hanch
  have hmin : ∀ x ∈ elemsForest (t :: rest), t.node ≤ x :=
    le_all_elems hheap (hanch t rfl)
  have hheaprs : forestHeap (rest ++ t.children) := by
    refine forestHeap_append (fun u hu => hheap u (List.mem_cons_of_mem t hu)) ?_
    exact Tree.isHeap_children (hheap t (List.mem_cons_self t rest))
  have hbinrs : forestBinom (rest ++ t.children) := by
    refine forestBinom_append (fun u hu => hbin u (List.mem_cons_of_mem t hu)) ?_
    exact Tree.binomRank_children (hbin t (List.mem_cons_self t rest))
  have hperm_e : (elemsForest (t :: rest)).Perm
      (t.node :: elemsForest (rest ++ t.children)) := by
    cases t with
    | mk v cs =>
      rw [elemsForest, Tree.elems, Tree.node, Tree.children, elemsForest_append]
      show (v :: (elemsForest cs ++ elemsForest rest)).Perm
        (v :: (elemsForest rest ++ elemsForest cs))
      exact (List.perm_append_comm).cons v
  by_cases hrs : rest ++ t.children = []
  · have hreb : rebalance1 (rest ++ t.children) = some [] := by
      rw [hrs]
      rfl
    refine ⟨⟨[]⟩, ?_, ?_, ?_, ?_⟩
    · rw [Heap1.pop]
      split
      · rename_i heq
        rw [hr] at heq
        exact List.noConfusion heq
      · rename_i u rest' heq
        rw [hr] at heq
        obtain ⟨rfl, rfl⟩ := List.cons.inj heq
        rw [hreb]
        rfl
    · exact ⟨forestHeap_nil, forestBinom_nil, fun hd hhd => Option.noConfusion hhd⟩
    · rw [hr]
      have := hperm_e
      rwa [hrs] at this
    · rw [hr]
      exact hmin
  · obtain ⟨out, hout⟩ := rebalance1_isSome hrs hbinrs
    have hpermout := rebalance1_perm hout
    have hheapout := rebalance1_heap hout hheaprs
    have hbinout := rebalance1_binom hout hbinrs
    have houtne : out ≠ [] := by
      intro hc
      rw [hc, elemsForest] at hpermout
      exact hrs (elemsForest_eq_nil (List.Perm.eq_nil hpermout.symm))
    cases hmi : minIdxVal out with
    | none => exact absurd ((minIdxVal_eq_none_iff out).mp hmi) houtne
    | some p =>
      obtain ⟨j, m⟩ := p
      obtain ⟨hj, hjm, hall, _⟩ := minIdxVal_spec out j m hmi
      refine ⟨⟨bring_min_to_front out⟩, ?_, ?_, ?_, ?_⟩
      · rw [Heap1.pop]
        split
        · rename_i heq
          rw [hr] at heq
          exact List.noConfusion heq
        · rename_i u rest' heq
          rw [hr] at heq
          obtain ⟨rfl, rfl⟩ := List.cons.inj heq
          rw [hout]
      · refine ⟨forestHeap_perm (bring_min_to_front_perm out).symm hheapout,
          forestBinom_perm (bring_min_to_front_perm out).symm hbinout, ?_⟩
        intro hd hhd u hu
        rw [bring_min_to_front_head hmi] at hhd
        have hdm : hd.node = m := by
          rw [hhd] at hjm
          exact Option.some.inj hjm
        rw [hdm]
        exact hall u ((bring_min_to_front_perm out).mem_iff.mp hu)
      · rw [hr]
        refine hperm_e.trans ?_
        refine List.Perm.cons t.node ?_
        exact (hpermout.symm).trans (elemsForest_perm (bring_min_to_front_perm out).symm)
      · rw [hr]
        exact hmin

end Fh

namespace Fh

variable {α : Type} [LinearOrder α]

/-- Rust `FibonacciHeap::pop` (v2) on an empty heap: `None`, no change. -/
theorem pop2_empty {h : Heap2 α} (hr : h.roots = []) : h.pop = some (none, h) := by
  rw [Heap2.pop]
  split
  · rfl
  · rename_i lst heq
    rw [hr] at heq
    exact Option.noConfusion heq

/-- Rust `FibonacciHeap::pop` (v2) on a non-empty heap returns the last
root's value — the minimum — decrements `len`, and re-establishes the
invariant on a heap holding the remaining multiset. -/
theorem pop2_spec {h : Heap2 α} (hInv : Inv2 h) {lst : Tree α}
    (hr : h.roots.getLast? = some lst) :
    ∃ h', h.pop = some (some lst.node, h') ∧ Inv2 h' ∧
      (elemsForest h.roots).Perm (lst.node :: elemsForest h'.roots) ∧
      (∀ x ∈ elemsForest h.roots, lst.node ≤ x) ∧ h'.len = h.len - 1 := by
  obtain ⟨hheap, hbin, hlen, hanch⟩ := hInv
  have hsplit : h.roots.dropLast ++ [lst] = h.roots :=
    List.dropLast_append_getLast? lst hr
  have hlstmem : lst ∈ h.roots := by
    rw [← hsplit]
    exact List.mem_append.mpr (Or.inr (List.mem_singleton.mpr rfl))
  have hmin : ∀ x ∈ elemsForest h.roots, lst.node ≤ x :=
    le_all_elems hheap (hanch lst hr)
  have hdropmem : ∀ u ∈ h.roots.dropLast, u ∈ h.roots := by
    intro u hu
    rw [← hsplit]
    exact List.mem_append.mpr (Or.inl hu)
  have hheaprs : forestHeap (h.roots.dropLast ++ lst.children) := by
    refine forestHeap_append (fun u hu => hheap u (hdropmem u hu)) ?_
    exact Tree.isHeap_children (hheap lst hlstmem)
  have hbinrs : forestBinom (h.roots.dropLast ++ lst.children) := by
    refine forestBinom_append (fun u hu => hbin u (hdropmem u hu)) ?_
    exact Tree.binomRank_children (hbin lst hlstmem)
  have hperm_e : (elemsForest h.roots).Perm
      (lst.node :: elemsForest (h.roots.dropLast ++ lst.children)) := by
    conv_lhs => rw [← hsplit]
    cases lst with
    | mk v cs =>
      rw [elemsForest_append, elemsForest, Tree.elems, elemsForest,
        List.append_nil, elemsForest_append, Tree.node]
      exact List.perm_middle
  have hcount : countForest (h.roots.dropLast ++ lst.children) = h.len - 1 := by
    have h1 : countForest h.roots
        = countForest (h.roots.dropLast ++ lst.children) + 1 := by
      rw [countForest_eq, countForest_eq, hperm_e.length_eq, List.length_cons]
    omega
  by_cases hrs : h.roots.dropLast ++ lst.children = []
  · have hreb : rebalance2 (h.roots.dropLast ++ lst.children) (h.len - 1)
        = some [] := by
      rw [hrs, rebalance2]
      rfl
    refine ⟨⟨[], h.len - 1⟩, ?_, ?_, ?_, hmin, rfl⟩
    · rw [Heap2.pop]
      split
      · rename_i heq
        rw [hr] at heq
        exact Option.noConfusion heq
      · rename_i lst' heq
        rw [hr, Option.some.injEq] at heq
        subst heq
        rw [hreb]
        rfl
    · refine ⟨forestHeap_nil, forestBinom_nil, ?_,
        fun l hl => Option.noConfusion hl⟩
      rw [hrs] at hcount
      rw [countForest] at hcount
      show h.len - 1 = countForest []
      rw [countForest]
      omega
    · have := hperm_e
      rwa [hrs] at this
  · obtain ⟨out, hout⟩ := rebalance2_isSome hrs hcount.symm hbinrs
    have hpermout := rebalance2_perm hout
    have hheapout := rebalance2_heap hout hheaprs
    have hbinout := rebalance2_binom hout hbinrs
    have houtne : out ≠ [] := by
      intro hc
      rw [hc, elemsForest] at hpermout
      exact hrs (elemsForest_eq_nil (List.Perm.eq_nil hpermout.symm))
    cases hmi : minIdxVal out with
    | none => exact absurd ((minIdxVal_eq_none_iff out).mp hmi) houtne
    | some p =>
      obtain ⟨j, m⟩ := p
      obtain ⟨hj, hjm, hall, _⟩ := minIdxVal_spec out j m hmi
      refine ⟨⟨order_min out, h.len - 1⟩, ?_, ?_, ?_, hmin, rfl⟩
      · rw [Heap2.pop]
        split
        · rename_i heq
          rw [hr] at heq
          exact Option.noConfusion heq
        · rename_i lst' heq
          rw [hr, Option.some.injEq] at heq
          subst heq
          rw [hout]
      · refine ⟨forestHeap_perm (order_min_perm out).symm hheapout,
          forestBinom_perm (order_min_perm out).symm hbinout, ?_, ?_⟩
        · show h.len - 1 = countForest (order_min out)
          rw [countForest_eq,
            (elemsForest_perm (order_min_perm out)).length_eq,
            ← countForest_eq, countForest_eq, hpermout.length_eq,
            ← countForest_eq]
          omega
        · intro l hl u hu
          rw [order_min_getLast hmi] at hl
          have hlm : l.node = m := by
            rw [hl] at hjm
            exact Option.some.inj hjm
          rw [hlm]
          exact hall u ((order_min_perm out).mem_iff.mp hu)
      · refine hperm_e.trans ?_
        refine List.Perm.cons lst.node ?_
        exact (hpermout.symm).trans (elemsForest_perm (order_min_perm out).symm)

end Fh

namespace Fh

variable {α : Type} [LinearOrder α]

theorem inv1_new : Inv1 (Heap1.new : Heap1 α) :=
  ⟨forestHeap_nil, forestBinom_nil, fun hd hhd => Option.noConfusion hhd⟩

theorem inv2_new : Inv2 (Heap2.new : Heap2 α) :=
  ⟨forestHeap_nil, forestBinom_nil, rfl, fun l hl => Option.noConfusion hl⟩

/-- Rust `FibonacciHeap::peek` (v1) under the invariant: `None` exactly on
the empty heap, and otherwise a minimum of the stored multiset. -/
theorem peek1_spec {h : Heap1 α} (hInv : Inv1 h) :
    (h.peek = none ↔ elemsForest h.roots = []) ∧
      ∀ m, h.peek = some m → m ∈ elemsForest h.roots ∧
        ∀ x ∈ elemsForest h.roots, m ≤ x := by
  obtain ⟨hheap, hbin, hanch⟩ := hInv
  cases hr : h.roots with
  | nil =>
    constructor
    · rw [Heap1.peek, hr, elemsForest]
      simp
    · intro m hm
      rw [Heap1.peek, hr] at hm
      exact Option.noConfusion hm
  | cons hd rest =>
    rw [hr] at hheap hanch
    have hpeek : h.peek = some hd.node := by
      rw [Heap1.peek, hr]
      rfl
    constructor
    · rw [hpeek]
      constructor
      · intro hc
        exact Option.noConfusion hc
      · intro hc
        exact List.noConfusion (elemsForest_eq_nil hc)
    · intro m hm
      rw [hpeek, Option.some.injEq] at hm
      subst hm
      refine ⟨?_, ?_⟩
      · exact mem_elemsForest.mpr ⟨hd, List.mem_cons_self hd rest, hd.node_mem_elems⟩
      · exact le_all_elems hheap (hanch hd rfl)

/-- Rust `FibonacciHeap::peek` (v2) under the invariant: `None` exactly on
the empty heap, and otherwise a minimum of the stored multiset. -/
theorem peek2_spec {h : Heap2 α} (hInv : Inv2 h) :
    (h.peek = none ↔ elemsForest h.roots = []) ∧
      ∀ m, h.peek = some m → m ∈ elemsForest h.roots ∧
        ∀ x ∈ elemsForest h.roots, m ≤ x := by
  obtain ⟨hheap, hbin, hlen, hanch⟩ := hInv
  cases hr : h.roots.getLast? with
  | none =>
    have hroots : h.roots = [] := List.getLast?_eq_none_iff.mp hr
    constructor
    · rw [Heap2.peek, hr, hroots, elemsForest]
      simp
    · intro m hm
      rw [Heap2.peek, hr] at hm
      exact Option.noConfusion hm
  | some lst =>
    have hlstmem : lst ∈ h.roots := by
      rw [← List.dropLast_append_getLast? lst hr]
      exact List.mem_append.mpr (Or.inr (List.mem_singleton.mpr rfl))
    have hpeek : h.peek = some lst.node := by
      rw [Heap2.peek, hr]
      rfl
    constructor
    · rw [hpeek]
      constructor
      · intro hc
        exact Option.noConfusion hc
      · intro hc
        have hroots : h.roots = [] := elemsForest_eq_nil hc
        rw [hroots] at hlstmem
        exact absurd hlstmem (List.not_mem_nil lst)
    · intro m hm
      rw [hpeek, Option.some.injEq] at hm
      subst hm
      refine ⟨mem_elemsForest.mpr ⟨lst, hlstmem, lst.node_mem_elems⟩,
        le_all_elems hheap (hanch lst hr)⟩

end Fh

namespace Fh

variable {α : Type} [LinearOrder α]

/-- Puts `countForest` through a push (v1). -/
theorem push1_count {h : Heap1 α} (hInv : Inv1 h) (x : α) :
    countForest (h.push x).roots = countForest h.roots + 1 := by
  have := (push1_spec hInv x).2.length_eq
  rw [List.length_cons] at this
  rw [countForest_eq, countForest_eq]
  omega

theorem countHits_cons_none (rs : List (Option α)) :
    countHits (none :: rs) = countHits rs := rfl

theorem countHits_cons_some (x : α) (rs : List (Option α)) :
    countHits (some x :: rs) = countHits rs + 1 := by
  rw [countHits, countHits, List.filterMap_cons]
  simp

/-- Running any operation list from an invariant-satisfying v1 heap
succeeds (no panic), preserves the invariant, and obeys size accounting. -/
theorem steps1_spec :
    ∀ (ops : List (Op α)) (h : Heap1 α), Inv1 h →
      ∃ h' rs, steps1 h ops = some (h', rs) ∧ Inv1 h' ∧
        countForest h'.roots + countHits rs
          = countForest h.roots + countPush ops := by
  intro ops
  induction ops with
  | nil =>
    intro h hInv
    exact ⟨h, [], rfl, hInv, by rw [countHits, countPush]; simp⟩
  | cons op ops ih =>
    intro h hInv
    cases op with
    | push x =>
      obtain ⟨h', rs, hsteps, hInv', hcnt⟩ := ih (h.push x) (push1_spec hInv x).1
      refine ⟨h', rs, hsteps, hInv', ?_⟩
      rw [push1_count hInv x] at hcnt
      rw [countPush]
      omega
    | pop =>
      cases hr : h.roots with
      | nil =>
        obtain ⟨h', rs, hsteps, hInv', hcnt⟩ := ih h hInv
        refine ⟨h', none :: rs, ?_, hInv', ?_⟩
        · rw [steps1, pop1_empty hr]
          show (steps1 h ops).map (fun p => (p.1, none :: p.2))
            = some (h', none :: rs)
          rw [hsteps]
          rfl
        · have h0 : countForest h.roots = 0 := by rw [hr]; rfl
          have hnil0 : countForest ([] : List (Tree α)) = 0 := rfl
          rw [countPush, countHits_cons_none]
          omega
      | cons t rest =>
        obtain ⟨h1, hpop, hInv1, hperm, _⟩ := pop1_spec hInv hr
        obtain ⟨h', rs, hsteps, hInv', hcnt⟩ := ih h1 hInv1
        refine ⟨h', some t.node :: rs, ?_, hInv', ?_⟩
        · rw [steps1, hpop]
          show (steps1 h1 ops).map (fun p => (p.1, some t.node :: p.2))
            = some (h', some t.node :: rs)
          rw [hsteps]
          rfl
        · have hlen := hperm.length_eq
          rw [List.length_cons] at hlen
          have hc1 : countForest h.roots = countForest h1.roots + 1 := by
            rw [countForest_eq, countForest_eq]
            omega
          have hgl : countForest (t :: rest) = countForest h.roots := by
            rw [hr]
          rw [countPush, countHits_cons_some]
          omega

/-- Puts `countForest` through a push (v2). -/
theorem push2_count {h : Heap2 α} (hInv : Inv2 h) (x : α) :
    countForest (h.push x).roots = countForest h.roots + 1 := by
  have := (push2_spec hInv x).2.1.length_eq
  rw [List.length_cons] at this
  rw [countForest_eq, countForest_eq]
  omega

/-- Running any operation list from an invariant-satisfying v2 heap
succeeds (no panic), preserves the invariant, and obeys size accounting. -/
theorem steps2_spec :
    ∀ (ops : List (Op α)) (h : Heap2 α), Inv2 h →
      ∃ h' rs, steps2 h ops = some (h', rs) ∧ Inv2 h' ∧
        h'.len + countHits rs = h.len + countPush ops := by
  intro ops
  induction ops with
  | nil =>
    intro h hInv
    exact ⟨h, [], rfl, hInv, by rw [countHits, countPush]; simp⟩
  | cons op ops ih =>
    intro h hInv
    cases op with
    | push x =>
      obtain ⟨h', rs, hsteps, hInv', hcnt⟩ := ih (h.push x) (push2_spec hInv x).1
      refine ⟨h', rs, hsteps, hInv', ?_⟩
      rw [(push2_spec hInv x).2.2] at hcnt
      rw [countPush]
      omega
    | pop =>
      cases hr : h.roots.getLast? with
      | none =>
        have hroots : h.roots = [] := List.getLast?_eq_none_iff.mp hr
        obtain ⟨h', rs, hsteps, hInv', hcnt⟩ := ih h hInv
        refine ⟨h', none :: rs, ?_, hInv', ?_⟩
        · rw [steps2, pop2_empty hroots]
          show (steps2 h ops).map (fun p => (p.1, none :: p.2))
            = some (h', none :: rs)
          rw [hsteps]
          rfl
        · rw [countPush, countHits_cons_none]
          omega
      | some lst =>
        obtain ⟨hheaph, hbinh, hlenh, hanchh⟩ := hInv
        obtain ⟨h1, hpop, hInv1, hperm, _, hlen1⟩ :=
          pop2_spec ⟨hheaph, hbinh, hlenh, hanchh⟩ hr
        obtain ⟨h', rs, hsteps, hInv', hcnt⟩ := ih h1 hInv1
        refine ⟨h', some lst.node :: rs, ?_, hInv', ?_⟩
        · rw [steps2, hpop]
          show (steps2 h1 ops).map (fun p => (p.1, some lst.node :: p.2))
            = some (h', some lst.node :: rs)
          rw [hsteps]
          rfl
        · have hlenpos : 1 ≤ h.len := by
            have hlst : lst ∈ h.roots := by
              rw [← List.dropLast_append_getLast? lst hr]
              exact List.mem_append.mpr (Or.inr (List.mem_singleton.mpr rfl))
            have hne : h.roots ≠ [] := by
              intro hc
              rw [hc] at hlst
              exact absurd hlst (List.not_mem_nil lst)
            have := countForest_pos hne
            omega
          rw [countPush, countHits_cons_some]
          omega

end Fh

namespace Fh

variable {α : Type} [LinearOrder α]

/-- Pushing a list of items produces no pop output and stores exactly
those items (v1). -/
theorem pushes1_spec :
    ∀ (xs : List α) (h : Heap1 α), Inv1 h →
      ∃ h', steps1 h (xs.map Op.push) = some (h', []) ∧ Inv1 h' ∧
        (elemsForest h'.roots).Perm (xs ++ elemsForest h.roots) := by
  intro xs
  induction xs with
  | nil =>
    intro h hInv
    exact ⟨h, rfl, hInv, List.Perm.refl _⟩
  | cons x xs ih =>
    intro h hInv
    obtain ⟨hInv1, hperm1⟩ := push1_spec hInv x
    obtain ⟨h', hsteps, hInv', hperm⟩ := ih (h.push x) hInv1
    refine ⟨h', hsteps, hInv', ?_⟩
    refine hperm.trans ?_
    refine (List.Perm.append_left xs hperm1).trans ?_
    exact List.perm_middle

/-- Pushing a list of items produces no pop output and stores exactly
those items (v2). -/
theorem pushes2_spec :
    ∀ (xs : List α) (h : Heap2 α), Inv2 h →
      ∃ h', steps2 h (xs.map Op.push) = some (h', []) ∧ Inv2 h' ∧
        (elemsForest h'.roots).Perm (xs ++ elemsForest h.roots) := by
  intro xs
  induction xs with
  | nil =>
    intro h hInv
    exact ⟨h, rfl, hInv, List.Perm.refl _⟩
  | cons x xs ih =>
    intro h hInv
    obtain ⟨hInv1, hperm1, _⟩ := push2_spec hInv x
    obtain ⟨h', hsteps, hInv', hperm⟩ := ih (h.push x) hInv1
    refine ⟨h', hsteps, hInv', ?_⟩
    refine hperm.trans ?_
    refine (List.Perm.append_left xs hperm1).trans ?_
    have : (xs ++ x :: elemsForest h.roots).Perm
        (x :: (xs ++ elemsForest h.roots)) := List.perm_middle
    exact this

/-- Draining an invariant-satisfying v1 heap with fuel equal to its size
succeeds and yields its stored multiset in non-decreasing order. -/
theorem drain1_spec :
    ∀ (n : Nat) (h : Heap1 α), Inv1 h → countForest h.roots = n →
      ∃ out, drain1 n h = some out ∧ out.Perm (elemsForest h.roots) ∧
        out.Sorted (· ≤ ·) := by
  intro n
  induction n with
  | zero =>
    intro h hInv hn
    have hroots : h.roots = [] := countForest_eq_zero hn
    refine ⟨[], ?_, ?_, List.sorted_nil⟩
    · rw [drain1, pop1_empty hroots]
    · rw [hroots, elemsForest]
  | succ n ih =>
    intro h hInv hn
    cases hr : h.roots with
    | nil =>
      rw [hr] at hn
      rw [countForest] at hn
      exact absurd hn (by omega)
    | cons t rest =>
      obtain ⟨h1, hpop, hInv1, hperm, hmin⟩ := pop1_spec hInv hr
      have hc1 : countForest h1.roots = n := by
        have := hperm.length_eq
        rw [List.length_cons] at this
        rw [countForest_eq] at hn ⊢
        omega
      obtain ⟨out, hdrain, houtperm, hsorted⟩ := ih h1 hInv1 hc1
      refine ⟨t.node :: out, ?_, ?_, ?_⟩
      · rw [drain1, hpop]
        show (drain1 n h1).map (fun l => t.node :: l) = some (t.node :: out)
        rw [hdrain]
        rfl
      · have hgl : elemsForest (t :: rest) = elemsForest h.roots := by rw [hr]
        rw [hgl]
        exact (houtperm.cons t.node).trans hperm.symm
      · rw [List.sorted_cons]
        refine ⟨?_, hsorted⟩
        intro b hb
        have hbmem : b ∈ elemsForest h1.roots := houtperm.mem_iff.mp hb
        have : b ∈ elemsForest h.roots := by
          refine hperm.mem_iff.mpr ?_
          exact List.mem_cons_of_mem _ hbmem
        exact hmin b this

/-- Draining an invariant-satisfying v2 heap with fuel equal to its size
succeeds and yields its stored multiset in non-decreasing order. -/
theorem drain2_spec :
    ∀ (n : Nat) (h : Heap2 α), Inv2 h → countForest h.roots = n →
      ∃ out, drain2 n h = some out ∧ out.Perm (elemsForest h.roots) ∧
        out.Sorted (· ≤ ·) := by
  intro n
  induction n with
  | zero =>
    intro h hInv hn
    have hroots : h.roots = [] := countForest_eq_zero hn
    refine ⟨[], ?_, ?_, List.sorted_nil⟩
    · rw [drain2, pop2_empty hroots]
    · rw [hroots, elemsForest]
  | succ n ih =>
    intro h hInv hn
    cases hr : h.roots.getLast? with
    | none =>
      have hroots : h.roots = [] := List.getLast?_eq_none_iff.mp hr
      rw [hroots] at hn
      rw [countForest] at hn
      exact absurd hn (by omega)
    | some lst =>
      obtain ⟨h1, hpop, hInv1, hperm, hmin, _⟩ := pop2_spec hInv hr
      have hc1 : countForest h1.roots = n := by
        have := hperm.length_eq
        rw [List.length_cons] at this
        rw [countForest_eq] at hn ⊢
        omega
      obtain ⟨out, hdrain, houtperm, hsorted⟩ := ih h1 hInv1 hc1
      refine ⟨lst.node :: out, ?_, ?_, ?_⟩
      · rw [drain2, hpop]
        show (drain2 n h1).map (fun l => lst.node :: l) = some (lst.node :: out)
        rw [hdrain]
        rfl
      · exact (houtperm.cons lst.node).trans hperm.symm
      · rw [List.sorted_cons]
        refine ⟨?_, hsorted⟩
        intro b hb
        have hbmem : b ∈ elemsForest h1.roots := houtperm.mem_iff.mp hb
        have : b ∈ elemsForest h.roots := by
          refine hperm.mem_iff.mpr ?_
          exact List.mem_cons_of_mem _ hbmem
        exact hmin b this

end Fh

namespace Fh

variable {α : Type} [LinearOrder α]

/-- Simultaneous run of v1 and v2: starting from heaps with equal stored
multisets, both runs succeed, produce identical pop traces, and end with
equal stored multisets. -/
theorem steps12_spec :
    ∀ (ops : List (Op α)) (h1 : Heap1 α) (h2 : Heap2 α), Inv1 h1 → Inv2 h2 →
      (elemsForest h1.roots).Perm (elemsForest h2.roots) →
      ∃ h1' h2' rs, steps1 h1 ops = some (h1', rs) ∧
        steps2 h2 ops = some (h2', rs) ∧ Inv1 h1' ∧ Inv2 h2' ∧
        (elemsForest h1'.roots).Perm (elemsForest h2'.roots) := by
  intro ops
  induction ops with
  | nil =>
    intro h1 h2 hInv1 hInv2 hperm
    exact ⟨h1, h2, [], rfl, rfl, hInv1, hInv2, hperm⟩
  | cons op ops ih =>
    intro h1 h2 hInv1 hInv2 hperm
    cases op with
    | push x =>
      obtain ⟨hInv1', hp1⟩ := push1_spec hInv1 x
      obtain ⟨hInv2', hp2, _⟩ := push2_spec hInv2 x
      have hperm' : (elemsForest (h1.push x).roots).Perm
          (elemsForest (h2.push x).roots) :=
        (hp1.trans (hperm.cons x)).trans hp2.symm
      obtain ⟨h1', h2', rs, hs1, hs2, hi1, hi2, hp⟩ :=
        ih (h1.push x) (h2.push x) hInv1' hInv2' hperm'
      exact ⟨h1', h2', rs, hs1, hs2, hi1, hi2, hp⟩
    | pop =>
      cases hr1 : h1.roots with
      | nil =>
        have he1 : elemsForest h1.roots = [] := by
          rw [hr1, elemsForest]
        have he2 : elemsForest h2.roots = [] := by
          have hp0 : ([] : List α).Perm (elemsForest h2.roots) := he1 ▸ hperm
          exact List.Perm.eq_nil hp0.symm
        have hr2 : h2.roots = [] := elemsForest_eq_nil he2
        obtain ⟨h1', h2', rs, hs1, hs2, hi1, hi2, hp⟩ :=
          ih h1 h2 hInv1 hInv2 hperm
        refine ⟨h1', h2', none :: rs, ?_, ?_, hi1, hi2, hp⟩
        · rw [steps1, pop1_empty hr1]
          show (steps1 h1 ops).map (fun p => (p.1, none :: p.2))
            = some (h1', none :: rs)
          rw [hs1]
          rfl
        · rw [steps2, pop2_empty hr2]
          show (steps2 h2 ops).map (fun p => (p.1, none :: p.2))
            = some (h2', none :: rs)
          rw [hs2]
          rfl
      | cons t rest =>
        cases hr2 : h2.roots.getLast? with
        | none =>
          have hroots2 : h2.roots = [] := List.getLast?_eq_none_iff.mp hr2
          have he2 : elemsForest h2.roots = [] := by
            rw [hroots2, elemsForest]
          have he1 : elemsForest h1.roots = [] :=
            List.Perm.eq_nil (he2 ▸ hperm)
          have : h1.roots = [] := elemsForest_eq_nil he1
          rw [hr1] at this
          exact List.noConfusion this
        | some lst =>
          obtain ⟨g1, hpop1, hInvg1, hpermg1, hming1⟩ := pop1_spec hInv1 hr1
          obtain ⟨g2, hpop2, hInvg2, hpermg2, hming2, _⟩ := pop2_spec hInv2 hr2
          have hm1mem : t.node ∈ elemsForest h1.roots :=
            hpermg1.mem_iff.mpr (List.mem_cons_self _ _)
          have hm2mem : lst.node ∈ elemsForest h2.roots :=
            hpermg2.mem_iff.mpr (List.mem_cons_self _ _)
          have heq : t.node = lst.node := by
            refine le_antisymm ?_ ?_
            · exact hming1 lst.node (hperm.mem_iff.mpr hm2mem)
            · exact hming2 t.node (hperm.mem_iff.mp hm1mem)
          have hpermg : (elemsForest g1.roots).Perm (elemsForest g2.roots) := by
            have hc : (t.node :: elemsForest g1.roots).Perm
                (t.node :: elemsForest g2.roots) := by
              refine (hpermg1.symm.trans hperm).trans ?_
              rw [heq]
              exact hpermg2
            exact hc.cons_inv
          obtain ⟨h1', h2', rs, hs1, hs2, hi1, hi2, hp⟩ :=
            ih g1 g2 hInvg1 hInvg2 hpermg
          refine ⟨h1', h2', some t.node :: rs, ?_, ?_, hi1, hi2, hp⟩
          · rw [steps1, hpop1]
            show (steps1 g1 ops).map (fun p => (p.1, some t.node :: p.2))
              = some (h1', some t.node :: rs)
            rw [hs1]
            rfl
          · rw [steps2, hpop2]
            show (steps2 g2 ops).map (fun p => (p.1, some lst.node :: p.2))
              = some (h2', some t.node :: rs)
            rw [hs2, heq]
            rfl

end Fh

namespace Fh

/-- C1: after any finite sequence of push/pop operations from `new()`, in
both v1 and v2, `peek()` returns `None` exactly when the heap holds no
elements, and otherwise returns a value of the stored multiset that is `≤`
every stored value (a minimum of the multiset). -/
theorem claim_C1 {α : Type} [LinearOrder α] (ops : List (Op α)) :
    (∃ (h : Heap1 α) (rs : List (Option α)), run1 ops = some (h, rs) ∧
      (h.peek = none ↔ elemsForest h.roots = []) ∧
      ∀ m, h.peek = some m → m ∈ elemsForest h.roots ∧
        ∀ x ∈ elemsForest h.roots, m ≤ x) ∧
    (∃ (h : Heap2 α) (rs : List (Option α)), run2 ops = some (h, rs) ∧
      (h.peek = none ↔ elemsForest h.roots = []) ∧
      ∀ m, h.peek = some m → m ∈ elemsForest h.roots ∧
        ∀ x ∈ elemsForest h.roots, m ≤ x) := by
  constructor
  · obtain ⟨h, rs, hsteps, hInv, _⟩ := steps1_spec ops Heap1.new inv1_new
    exact ⟨h, rs, hsteps, (peek1_spec hInv).1, (peek1_spec hInv).2⟩
  · obtain ⟨h, rs, hsteps, hInv, _⟩ := steps2_spec ops Heap2.new inv2_new
    exact ⟨h, rs, hsteps, (peek2_spec hInv).1, (peek2_spec hInv).2⟩

/-- C2: pushing a finite sequence into a fresh heap and popping until
`pop()` returns `None` (modelled by `drain` with fuel `len()`, which ends
exactly on the `None` result) yields the pushed multiset in non-decreasing
order, in both v1 and v2. -/
theorem claim_C2 {α : Type} [LinearOrder α] (xs : List α) :
    (∃ (h : Heap1 α) (out : List α), run1 (xs.map Op.push) = some (h, []) ∧
      drain1 h.len h = some out ∧ out.Perm xs ∧ out.Sorted (· ≤ ·)) ∧
    (∃ (h : Heap2 α) (out : List α), run2 (xs.map Op.push) = some (h, []) ∧
      drain2 h.len h = some out ∧ out.Perm xs ∧ out.Sorted (· ≤ ·)) := by
  constructor
  · obtain ⟨h, hsteps, hInv, hperm⟩ := pushes1_spec xs Heap1.new inv1_new
    have hxs : (elemsForest h.roots).Perm xs := by
      have : elemsForest (Heap1.new : Heap1 α).roots = [] := rfl
      rw [this, List.append_nil] at hperm
      exact hperm
    obtain ⟨out, hdrain, houtperm, hsorted⟩ :=
      drain1_spec (countForest h.roots) h hInv rfl
    exact ⟨h, out, hsteps, hdrain, houtperm.trans hxs, hsorted⟩
  · obtain ⟨h, hsteps, hInv, hperm⟩ := pushes2_spec xs Heap2.new inv2_new
    have hxs : (elemsForest h.roots).Perm xs := by
      have : elemsForest (Heap2.new : Heap2 α).roots = [] := rfl
      rw [this, List.append_nil] at hperm
      exact hperm
    have hlen : h.len = countForest h.roots := hInv.2.2.1
    obtain ⟨out, hdrain, houtperm, hsorted⟩ :=
      drain2_spec h.len h hInv hlen.symm
    exact ⟨h, out, hsteps, hdrain, houtperm.trans hxs, hsorted⟩

/-- C3: after any finite operation sequence from `new()`, `len()` plus the
number of pops that returned `Some` equals the number of pushes, in both v1
(which recomputes the count by traversal) and v2 (incremental field); and a
heap with `len() = 0` answers `pop()` with `None`, unchanged. -/
theorem claim_C3 {α : Type} [LinearOrder α] (ops : List (Op α)) :
    (∃ (h : Heap1 α) (rs : List (Option α)), run1 ops = some (h, rs) ∧
      h.len + countHits rs = countPush ops ∧
      (h.len = 0 → h.pop = some (none, h))) ∧
    (∃ (h : Heap2 α) (rs : List (Option α)), run2 ops = some (h, rs) ∧
      h.len + countHits rs = countPush ops ∧
      (h.len = 0 → h.pop = some (none, h))) := by
  constructor
  · obtain ⟨h, rs, hsteps, hInv, hcnt⟩ := steps1_spec ops Heap1.new inv1_new
    have h0 : countForest (Heap1.new : Heap1 α).roots = 0 := rfl
    refine ⟨h, rs, hsteps, ?_, ?_⟩
    · rw [Heap1.len]
      omega
    · intro hlen
      rw [Heap1.len] at hlen
      exact pop1_empty (countForest_eq_zero hlen)
  · obtain ⟨h, rs, hsteps, hInv, hcnt⟩ := steps2_spec ops Heap2.new inv2_new
    have h0 : (Heap2.new : Heap2 α).len = 0 := rfl
    refine ⟨h, rs, hsteps, by omega, ?_⟩
    · intro hlen
      have hcount : countForest h.roots = 0 := by
        have := hInv.2.2.1
        omega
      exact pop2_empty (countForest_eq_zero hcount)

end Fh

namespace Fh

/-- C4 (counterexample): a non-empty forest with the correct total count
`n = 3` on which `rebalance` does not produce any root collection — the
single root has degree `2 ≥ cap = ⌊log2 3⌋ + 1 = 2`, so the bucket access
panics (modelled by `none`) in v1 and, with the same correct count passed
explicitly, in v2. -/
theorem claim_C4_counterexample :
    rebalance1 [Tree.mk (1 : ℕ) [Tree.mk 2 [], Tree.mk 3 []]] = none ∧
    rebalance2 [Tree.mk (1 : ℕ) [Tree.mk 2 [], Tree.mk 3 []]] 3 = none := by
  decide

/-- C4 (amended): whenever `rebalance` completes — in particular on every
forest reachable through the heap operations — the produced root
collection lists strictly increasing (hence pairwise distinct) degrees. -/
theorem claim_C4_amended {α : Type} [LinearOrder α]
    (roots out : List (Tree α)) (hne : roots ≠ []) :
    (rebalance1 roots = some out → (out.map Tree.degree).Pairwise (· < ·)) ∧
    (∀ nodes : Nat, rebalance2 roots nodes = some out →
      (out.map Tree.degree).Pairwise (· < ·)) := by
  exact ⟨fun h => rebalance1_degrees h, fun nodes h => rebalance2_degrees h⟩

/-- C4 (witness): a concrete non-empty input on which `rebalance`
completes, with strictly increasing output degrees. -/
theorem claim_C4_witness :
    rebalance1 [Tree.new (2 : ℕ), Tree.new 1]
      = some [Tree.mk 1 [Tree.mk 2 []]] ∧
    (([Tree.mk (1 : ℕ) [Tree.mk 2 []]].map Tree.degree).Pairwise (· < ·)) :=
  ⟨by decide,
    (claim_C4_amended [Tree.new (2 : ℕ), Tree.new 1] [Tree.mk 1 [Tree.mk 2 []]]
      (by decide)).1 (by decide)⟩

/-- C5 (counterexample): a non-empty forest whose only tree is min-heap
ordered and whose total count `n = 3` is correct, yet `rebalance` panics
(models `none`) instead of producing an output in both v1 and v2: the
multiset-preservation and heap-preservation contract is vacuous there. -/
theorem claim_C5_counterexample :
    (∀ t ∈ [Tree.mk (1 : ℕ) [Tree.mk 2 [], Tree.mk 3 []]], t.isHeap = true) ∧
    countForest [Tree.mk (1 : ℕ) [Tree.mk 2 [], Tree.mk 3 []]] = 3 ∧
    rebalance1 [Tree.mk (1 : ℕ) [Tree.mk 2 [], Tree.mk 3 []]] = none ∧
    rebalance2 [Tree.mk (1 : ℕ) [Tree.mk 2 [], Tree.mk 3 []]] 3 = none := by
  decide

/-- C5 (amended): whenever `rebalance` completes on a forest of min-heap
ordered trees — in particular on every forest reachable through the heap
operations — it preserves the multiset of stored values (no value lost or
duplicated) and every output tree is min-heap ordered. -/
theorem claim_C5_amended {α : Type} [LinearOrder α]
    (roots out : List (Tree α)) (hh : ∀ t ∈ roots, t.isHeap = true) :
    (rebalance1 roots = some out →
      (elemsForest out).Perm (elemsForest roots) ∧
        ∀ t ∈ out, t.isHeap = true) ∧
    (∀ nodes : Nat, rebalance2 roots nodes = some out →
      (elemsForest out).Perm (elemsForest roots) ∧
        ∀ t ∈ out, t.isHeap = true) := by
  constructor
  · intro h
    exact ⟨rebalance1_perm h, rebalance1_heap h hh⟩
  · intro nodes h
    exact ⟨rebalance2_perm h, rebalance2_heap h hh⟩

/-- C5 (witness): a concrete heap-ordered input on which `rebalance`
completes, preserving the value multiset and heap order. -/
theorem claim_C5_witness :
    (elemsForest [Tree.mk (1 : ℕ) [Tree.mk 2 []]]).Perm
      (elemsForest [Tree.new (2 : ℕ), Tree.new 1]) ∧
    ∀ t ∈ [Tree.mk (1 : ℕ) [Tree.mk 2 []]], t.isHeap = true :=
  (claim_C5_amended [Tree.new (2 : ℕ), Tree.new 1] [Tree.mk 1 [Tree.mk 2 []]]
    (by decide)).1 (by decide)

/-- C6 (counterexample): in the tie case the code makes the *occupying*
tree a child of the *inserted* tree, not the other way around as the claim
states: placing the rank-1 tree `A = 5[6]` into a bucket occupied by the
rank-1 tree `B = 5[7]` (equal root values 5) produces `5[6, B]` — `B`
becomes a child of `A` — which differs from the claimed `5[7, A]`. -/
theorem claim_C6_counterexample :
    insertTree [none, some (Tree.mk (5 : ℕ) [Tree.mk 7 []]), none]
        (Tree.mk (5 : ℕ) [Tree.mk 6 []])
      = some [none, none,
          some (Tree.mk 5 [Tree.mk 6 [], Tree.mk 5 [Tree.mk 7 []]])] ∧
    Tree.mk (5 : ℕ) [Tree.mk 6 [], Tree.mk 5 [Tree.mk 7 []]]
      ≠ Tree.mk (5 : ℕ) [Tree.mk 7 [], Tree.mk 5 [Tree.mk 6 []]] := by
  decide

/-- C6 (amended): when the bucket at the inserted tree's degree is
occupied, the two root values are compared with `≤`; the tree with the
strictly greater root becomes a child of the other, and on a tie the
*occupying* tree becomes a child of the *inserted* tree; either way the
surviving tree's degree grows by one and placement retries with it. -/
theorem claim_C6_amended {α : Type} [LinearOrder α]
    (buf : List (Option (Tree α))) (t tb : Tree α) (d : Nat)
    (hslot : buf[t.degree]? = some (some tb))
    (hdeg : t.degree = d) (hdegb : tb.degree = d) :
    insertTree buf t = insertTree (buf.set t.degree none) (mergeTrees t tb) ∧
    (t.node ≤ tb.node →
      mergeTrees t tb = Tree.mk t.node (t.children ++ [tb]) ∧
        (mergeTrees t tb).degree = d + 1) ∧
    (¬ t.node ≤ tb.node →
      mergeTrees t tb = Tree.mk tb.node (tb.children ++ [t]) ∧
        (mergeTrees t tb).degree = d + 1) := by
  refine ⟨?_, ?_, ?_⟩
  · rw [insertTree_eq, hslot]
  · intro hle
    exact ⟨by rw [mergeTrees, if_pos hle], mergeTrees_degree hdeg hdegb⟩
  · intro hle
    exact ⟨by rw [mergeTrees, if_neg hle], mergeTrees_degree hdeg hdegb⟩

/-- C6 (witness): the amended merge rule evaluated on the tie example. -/
theorem claim_C6_witness :
    mergeTrees (Tree.mk (5 : ℕ) [Tree.mk 6 []]) (Tree.mk 5 [Tree.mk 7 []])
      = Tree.mk 5 [Tree.mk 6 [], Tree.mk 5 [Tree.mk 7 []]] ∧
    (mergeTrees (Tree.mk (5 : ℕ) [Tree.mk 6 []])
      (Tree.mk 5 [Tree.mk 7 []])).degree = 2 :=
  (claim_C6_amended [none, some (Tree.mk (5 : ℕ) [Tree.mk 7 []]), none]
    (Tree.mk 5 [Tree.mk 6 []]) (Tree.mk 5 [Tree.mk 7 []]) 1
    (by decide) (by decide) (by decide)).2.1 (by decide)

/-- C7: on a non-empty root collection, the shared min-scan returns the
index of the minimum-valued root, ties broken by first occurrence (all
strictly earlier roots are strictly greater); v1's rotation puts that root
at the front and v2's swap puts it at the last index, after which the
designated root's value is `≤` every root's value. -/
theorem claim_C7 {α : Type} [LinearOrder α] (roots : List (Tree α))
    (hne : roots ≠ []) :
    ∃ (j : Nat) (m : α), minIdxVal roots = some (j, m) ∧ j < roots.length ∧
      roots[j]?.map Tree.node = some m ∧
      (∀ t ∈ roots, m ≤ t.node) ∧
      (∀ (i : Nat) (u : Tree α), i < j → roots[i]? = some u → m < u.node) ∧
      (bring_min_to_front roots).head? = roots[j]? ∧
      (order_min roots).getLast? = roots[j]? ∧
      (∀ t ∈ bring_min_to_front roots, m ≤ t.node) ∧
      (∀ t ∈ order_min roots, m ≤ t.node) := by
  cases hmi : minIdxVal roots with
  | none => exact absurd ((minIdxVal_eq_none_iff roots).mp hmi) hne
  | some p =>
    obtain ⟨j, m⟩ := p
    obtain ⟨hj, hjm, hall, hfirst⟩ := minIdxVal_spec roots j m hmi
    refine ⟨j, m, rfl, hj, hjm, hall, hfirst,
      bring_min_to_front_head hmi, order_min_getLast hmi, ?_, ?_⟩
    · intro t ht
      exact hall t ((bring_min_to_front_perm roots).mem_iff.mp ht)
    · intro t ht
      exact hall t ((order_min_perm roots).mem_iff.mp ht)

/-- C7 (witness): the min-scan on a concrete collection with a tie: the
minimum value 1 occurs at indices 1 and 2, and index 1 is returned. -/
theorem claim_C7_witness :
    ([Tree.new (3 : ℕ), Tree.new 1, Tree.new 1] ≠ []) ∧
    ∃ (j : Nat) (m : ℕ),
      minIdxVal [Tree.new 3, Tree.new 1, Tree.new 1] = some (j, m) ∧
      j < 3 ∧
      ([Tree.new (3 : ℕ), Tree.new 1, Tree.new 1])[j]?.map Tree.node = some m ∧
      (∀ t ∈ [Tree.new (3 : ℕ), Tree.new 1, Tree.new 1], m ≤ t.node) ∧
      (∀ (i : Nat) (u : Tree ℕ), i < j →
        ([Tree.new (3 : ℕ), Tree.new 1, Tree.new 1])[i]? = some u →
          m < u.node) ∧
      (bring_min_to_front [Tree.new (3 : ℕ), Tree.new 1, Tree.new 1]).head?
        = ([Tree.new (3 : ℕ), Tree.new 1, Tree.new 1])[j]? ∧
      (order_min [Tree.new (3 : ℕ), Tree.new 1, Tree.new 1]).getLast?
        = ([Tree.new (3 : ℕ), Tree.new 1, Tree.new 1])[j]? ∧
      (∀ t ∈ bring_min_to_front [Tree.new (3 : ℕ), Tree.new 1, Tree.new 1],
        m ≤ t.node) ∧
      (∀ t ∈ order_min [Tree.new (3 : ℕ), Tree.new 1, Tree.new 1],
        m ≤ t.node) :=
  ⟨by decide, claim_C7 [Tree.new 3, Tree.new 1, Tree.new 1] (by decide)⟩

end Fh

namespace Fh

/-- C8: every run of public operations from `new()` completes without the
consolidation panic: `run` propagates as `none` any bucket access
`buf[degree]` with `degree ≥ cap = ⌊log2 n⌋ + 1` (the condition guarded by
the `debug_assert!`), including the accesses of the inner re-insertion
loop, and also an `ilog2(0)` call; both runs always return `some`. -/
theorem claim_C8 {α : Type} [LinearOrder α] (ops : List (Op α)) :
    (run1 ops).isSome = true ∧ (run2 ops).isSome = true := by
  constructor
  · obtain ⟨h, rs, hsteps, _, _⟩ := steps1_spec ops Heap1.new inv1_new
    rw [run1, hsteps]
    rfl
  · obtain ⟨h, rs, hsteps, _, _⟩ := steps2_spec ops Heap2.new inv2_new
    rw [run2, hsteps]
    rfl

/-- C9: the two implementations are observationally equivalent: any
operation sequence run from both `new()`s succeeds on both, produces the
same sequence of `pop` results, and leaves heaps with the same `len()` and
the same `peek()`; as the sequence is universally quantified, this holds
at every step of every run. -/
theorem claim_C9 {α : Type} [LinearOrder α] (ops : List (Op α)) :
    ∃ (h1 : Heap1 α) (h2 : Heap2 α) (rs : List (Option α)),
      run1 ops = some (h1, rs) ∧ run2 ops = some (h2, rs) ∧
      h1.len = h2.len ∧ h1.peek = h2.peek := by
  obtain ⟨h1, h2, rs, hs1, hs2, hInv1, hInv2, hperm⟩ :=
    steps12_spec ops Heap1.new Heap2.new inv1_new inv2_new (List.Perm.refl [])
  refine ⟨h1, h2, rs, hs1, hs2, ?_, ?_⟩
  · rw [Heap1.len, hInv2.2.2.1, countForest_eq, countForest_eq]
    exact hperm.length_eq
  · obtain ⟨hiff1, hsome1⟩ := peek1_spec hInv1
    obtain ⟨hiff2, hsome2⟩ := peek2_spec hInv2
    cases hp1 : h1.peek with
    | none =>
      have he1 : elemsForest h1.roots = [] := hiff1.mp hp1
      have he2 : elemsForest h2.roots = [] := by
        have hp0 : ([] : List α).Perm (elemsForest h2.roots) := he1 ▸ hperm
        exact (List.Perm.eq_nil hp0.symm)
      exact (hiff2.mpr he2).symm
    | some m1 =>
      obtain ⟨hm1mem, hm1le⟩ := hsome1 m1 hp1
      cases hp2 : h2.peek with
      | none =>
        have he2 : elemsForest h2.roots = [] := hiff2.mp hp2
        have : m1 ∈ elemsForest h2.roots := hperm.mem_iff.mp hm1mem
        rw [he2] at this
        exact absurd this (List.not_mem_nil m1)
      | some m2 =>
        obtain ⟨hm2mem, hm2le⟩ := hsome2 m2 hp2
        have heq : m1 = m2 := by
          refine le_antisymm ?_ ?_
          · exact hm1le m2 (hperm.mem_iff.mpr hm2mem)
          · exact hm2le m1 (hperm.mem_iff.mp hm1mem)
        rw [heq]

/-- C10: after every completed run of public operations, every root tree
of either heap is a binomial tree — recursively, a tree of degree `k` has
children of degrees `0, …, k-1` — and therefore holds exactly `2 ^ degree`
nodes; this is the invariant that makes the `⌊log2 n⌋ + 1` bucket bound
sound. -/
theorem claim_C10 {α : Type} [LinearOrder α] (ops : List (Op α)) :
    ∃ (h1 : Heap1 α) (h2 : Heap2 α) (rs1 rs2 : List (Option α)),
      run1 ops = some (h1, rs1) ∧ run2 ops = some (h2, rs2) ∧
      (∀ t ∈ h1.roots, t.binomRank t.degree = true ∧
        t.count_nodes = 2 ^ t.degree) ∧
      (∀ t ∈ h2.roots, t.binomRank t.degree = true ∧
        t.count_nodes = 2 ^ t.degree) := by
  obtain ⟨h1, rs1, hs1, hInv1, _⟩ := steps1_spec ops Heap1.new inv1_new
  obtain ⟨h2, rs2, hs2, hInv2, _⟩ := steps2_spec ops Heap2.new inv2_new
  refine ⟨h1, h2, rs1, rs2, hs1, hs2, ?_, ?_⟩
  · intro t ht
    have hb := hInv1.2.1 t ht
    exact ⟨hb, t.binomRank_count t.degree hb⟩
  · intro t ht
    have hb := hInv2.2.1 t ht
    exact ⟨hb, t.binomRank_count t.degree hb⟩

end Fh
